import Mathlib

/-!
Verification of a skip-list implementation (`skip_list.py`).

The Python program stores mutable `SkipNode` objects on the heap, each holding a
key/value `Pair` and a dictionary `next : Dict[int, SkipNode]` mapping a level
index to the successor node at that level (a stored value may be `None`,
marking the end of the list at that level, and that differs from the key being
absent).  The `SkipList` object holds the head sentinel node, the current
maximum `level`, and `size`.

The embedding makes the heap explicit: nodes live in a `List SkipNode`, the
node id is the list index, and the head sentinel is node `0`.  The `next`
dictionary becomes an association list from level index to `Option Nat`
(successor id or `None`).  The three traversal loops of the source
(`__getitem__`, `insert`, `delete`) become fuel-indexed recursions; `none`
models a traversal that does not terminate or follows a dangling reference,
which cannot occur on well-formed lists (proved below).  Keys and values are
modelled as `Int`.
-/

/-- Key value pair to store in the SkipList (`class Pair`). -/
structure Pair where
  key : Int
  value : Int
deriving DecidableEq, Repr

/-- The `next` dictionary of a node: level index to optional successor id.
A stored `none` models Python `node.next[i] = None`; an absent key models the
key never having been written. -/
abbrev NDict := List (Nat × Option Nat)

/-- Python `d.get(i)`: `None` both when the key is absent and when the stored
value is `None`. -/
def dget (d : NDict) (i : Nat) : Option Nat :=
  match d.lookup i with
  | some v => v
  | none => none

/-- Python `d[i] = v`: set key `i` to `v` (insert or overwrite). -/
def dset (d : NDict) (i : Nat) (v : Option Nat) : NDict :=
  (i, v) :: d.filter (fun p => p.1 != i)

/-- Python `d.keys()`. -/
def dkeys (d : NDict) : List Nat := d.map Prod.fst

/-- A node in the skiplist (`class SkipNode`). -/
structure SkipNode where
  pair : Pair
  next : NDict
deriving DecidableEq, Repr

/-- `SkipNode.level`: `max(self.next.keys())` (Python raises on an empty
dictionary; the model returns 0 there, and is only used on nonempty ones). -/
def SkipNode.level (nd : SkipNode) : Nat :=
  (dkeys nd.next).foldr max 0

/-- The skip list (`class SkipList`): heap of nodes (head sentinel is node 0),
current maximum level, and tracked size. -/
structure SkipList where
  nodes : List SkipNode
  level : Nat
  size : Int
deriving DecidableEq, Repr

/-- A freshly constructed empty list: head sentinel with an empty dictionary
(the Python head's `Pair(None, None)` is modelled by a dummy pair). -/
def emptySkipList : SkipList :=
  ⟨[⟨⟨0, 0⟩, []⟩], 0, 0⟩

/-- The node stored at id `x` (dummy default for dangling ids; traversals
check validity through `succAt` before using it). -/
def nodeD (H : List SkipNode) (x : Nat) : SkipNode :=
  (H[x]?).getD ⟨⟨0, 0⟩, []⟩

/-- The pair of node `x`. -/
def pairAt (H : List SkipNode) (x : Nat) : Pair := (nodeD H x).pair

/-- The key of node `x` (`x.pair.key`). -/
def keyAt (H : List SkipNode) (x : Nat) : Int := (pairAt H x).key

/-- The value of node `x` (`x.pair.value`). -/
def valueAt (H : List SkipNode) (x : Nat) : Int := (pairAt H x).value

/-- `x.next.get(i)` guarded by validity of `x`: `none` when `x` is dangling,
otherwise `some` of the optional successor. -/
def succAt (H : List SkipNode) (x i : Nat) : Option (Option Nat) :=
  (H[x]?).map (fun nd => dget nd.next i)

/-- Heap update `x.next[i] = v` (no-op on a dangling id, which the operations
never produce). -/
def hset (H : List SkipNode) (x i : Nat) (v : Option Nat) : List SkipNode :=
  match H[x]? with
  | none => H
  | some nd => H.set x { nd with next := dset nd.next i v }

/-- The list of node ids reachable from `x` (excluding `x`) by following the
level-`i` links, with fuel; `none` when the fuel runs out or a link dangles. -/
def chainF (H : List SkipNode) (i : Nat) : Nat → Nat → Option (List Nat)
  | 0, _ => none
  | fuel+1, x =>
    match succAt H x i with
    | none => none
    | some none => some []
    | some (some y) => (chainF H i fuel y).map (y :: ·)

/-- The level-`i` chain of the list, from the head sentinel, with the canonical
fuel `nodes.length + 1` (sufficient on well-formed lists). -/
def chainAt (s : SkipList) (i : Nat) : Option (List Nat) :=
  chainF s.nodes i (s.nodes.length + 1) 0

/-- The level-`i` chain as a plain list (empty on traversal failure). -/
def chainL (s : SkipList) (i : Nat) : List Nat :=
  (chainAt s i).getD []

/-- The keys reachable at level `i`, in chain order. -/
def keysAt (s : SkipList) (i : Nat) : List Int :=
  (chainL s i).map (keyAt s.nodes)

/-- Inner `while` loop of `__getitem__` at level `i` from node `x`:
either returns a value (`Sum.inl`), or breaks with the final node
(`Sum.inr`); `none` models divergence/dangling access. -/
def getitemLoop (H : List SkipNode) (k : Int) (i : Nat) : Nat → Nat → Option (Sum Int Nat)
  | 0, _ => none
  | fuel+1, x =>
    match succAt H x i with
    | none => none
    | some none => some (Sum.inr x)
    | some (some y) =>
      match H[y]? with
      | none => none
      | some ynd =>
        if k < ynd.pair.key then some (Sum.inr x)
        else if ynd.pair.key = k then some (Sum.inl ynd.pair.value)
        else getitemLoop H k i fuel y

/-- The `for i in range(self.level, -1, -1)` descent of `__getitem__`:
`some (some v)` models returning `v`, `some none` models `raise KeyError`. -/
def getitemLevels (H : List SkipNode) (k : Int) (fuel : Nat) : Nat → Nat → Option (Option Int)
  | 0, x =>
    match getitemLoop H k 0 fuel x with
    | none => none
    | some (Sum.inl v) => some (some v)
    | some (Sum.inr _) => some none
  | i+1, x =>
    match getitemLoop H k (i+1) fuel x with
    | none => none
    | some (Sum.inl v) => some (some v)
    | some (Sum.inr x') => getitemLevels H k fuel i x'

/-- `SkipList.__getitem__(k)`: `some (some v)` models returning `v`,
`some none` models `raise KeyError(k)`. -/
def SkipList.getitem (s : SkipList) (k : Int) : Option (Option Int) :=
  getitemLevels s.nodes k (s.nodes.length + 1) s.level 0

/-- Inner `while` loop of `insert` at level `i`: advance while the successor
exists and its key is `< k`; returns the node at which the loop stops. -/
def insertLoop (H : List SkipNode) (k : Int) (i : Nat) : Nat → Nat → Option Nat
  | 0, _ => none
  | fuel+1, x =>
    match succAt H x i with
    | none => none
    | some none => some x
    | some (some y) =>
      match H[y]? with
      | none => none
      | some ynd =>
        if ynd.pair.key < k then insertLoop H k i fuel y
        else some x

/-- One level of `insert`: run the inner loop, then
`new_node.next[i] = x.next.get(i); x.next[i] = new_node`.
Returns the updated heap and the retained traversal pointer. -/
def insertStep (H : List SkipNode) (k : Int) (newId i fuel x : Nat) :
    Option (List SkipNode × Nat) :=
  match insertLoop H k i fuel x with
  | none => none
  | some x' =>
    let succ := dget (nodeD H x').next i
    some (hset (hset H newId i succ) x' i (some newId), x')

/-- The `for i in range(new_level, -1, -1)` descent of `insert`. -/
def insertLevels (k : Int) (newId fuel : Nat) : Nat → List SkipNode → Nat → Option (List SkipNode)
  | 0, H, x => (insertStep H k newId 0 fuel x).map Prod.fst
  | i+1, H, x =>
    match insertStep H k newId (i+1) fuel x with
    | none => none
    | some (H2, x') => insertLevels k newId fuel i H2 x'

/-- `SkipList.insert(key, value)`.  `newLevel` is the height returned by
`self.get_level()` (the randomized level picker, injectable exactly as the
tests override it).  The new node is allocated with an empty dictionary, the
list level is raised to `new_level` when it exceeds the current one, the
splice loop runs from `new_level` down to 0, and `size` is incremented. -/
def SkipList.insert (s : SkipList) (key value : Int) (newLevel : Nat) : Option SkipList :=
  let lvl := if newLevel > s.level then newLevel else s.level
  let H1 := s.nodes ++ [⟨⟨key, value⟩, []⟩]
  (insertLevels key s.nodes.length (s.nodes.length + 2) newLevel H1 0).map
    (fun Hf => ⟨Hf, lvl, s.size + 1⟩)

/-- Inner `while` loop of `delete` at level `i`: break on end-of-level or a
larger key; splice out an equal key (`x.next[i] = x.next[i].next.get(i)`)
without advancing; advance past a smaller key. -/
def deleteLoop (k : Int) (i : Nat) : Nat → List SkipNode → Nat → Bool → Option (List SkipNode × Nat × Bool)
  | 0, _, _, _ => none
  | fuel+1, H, x, del =>
    match succAt H x i with
    | none => none
    | some none => some (H, x, del)
    | some (some y) =>
      match H[y]? with
      | none => none
      | some ynd =>
        if k < ynd.pair.key then some (H, x, del)
        else if ynd.pair.key = k then
          deleteLoop k i fuel (hset H x i (dget ynd.next i)) x true
        else deleteLoop k i fuel H y del

/-- The `for i in range(self.level, -1, -1)` descent of `delete`. -/
def deleteLevels (k : Int) (fuel : Nat) : Nat → List SkipNode → Nat → Bool → Option (List SkipNode × Bool)
  | 0, H, x, del => (deleteLoop k 0 fuel H x del).map (fun t => (t.1, t.2.2))
  | i+1, H, x, del =>
    match deleteLoop k (i+1) fuel H x del with
    | none => none
    | some (H', x', del') => deleteLevels k fuel i H' x' del'

/-- `SkipList.delete(key)`: descend from `self.level`, splicing every node
with the key out of every level; decrement `size` exactly once if anything
was deleted.  `self.level` is never changed. -/
def SkipList.delete (s : SkipList) (k : Int) : Option SkipList :=
  (deleteLevels k (s.nodes.length + 1) s.level s.nodes 0 false).map
    (fun p => if p.2 then ⟨p.1, s.level, s.size - 1⟩ else ⟨p.1, s.level, s.size⟩)

/-- `len(skiplist)` (`__len__`): the tracked size. -/
def SkipList.len (s : SkipList) : Int := s.size

/-! ### Dictionary lemmas -/

theorem dget_dset_self (d : NDict) (i : Nat) (v : Option Nat) :
    dget (dset d i v) i = v := by
  simp [dget, dset, List.lookup]

theorem lookup_filter_ne (d : NDict) (i j : Nat) (hne : j ≠ i) :
    (d.filter (fun p => p.1 != i)).lookup j = d.lookup j := by
  induction d with
  | nil => rfl
  | cons a t ih =>
    by_cases hai : a.1 = i
    · have : (a.1 != i) = false := by simp [hai]
      simp [List.filter, this, List.lookup, ih]
      have : (j == a.1) = false := by simp [hai, hne]
      simp [this]
    · have : (a.1 != i) = true := by simp [hai]
      simp [List.filter, this, List.lookup]
      by_cases hja : j = a.1
      · simp [hja]
      · have h1 : (j == a.1) = false := by simp [hja]
        simp [h1, ih]

theorem dget_dset_ne (d : NDict) (i j : Nat) (v : Option Nat) (hne : j ≠ i) :
    dget (dset d i v) j = dget d j := by
  have h1 : (j == i) = false := by simp [hne]
  simp [dget, dset, List.lookup, h1, lookup_filter_ne d i j hne]

theorem mem_dkeys_dset (d : NDict) (i j : Nat) (v : Option Nat) :
    j ∈ dkeys (dset d i v) ↔ j = i ∨ j ∈ dkeys d := by
  simp only [dkeys, dset, List.map_cons, List.mem_cons]
  constructor
  · rintro (h | h)
    · exact Or.inl h
    · right
      obtain ⟨p, hp, hpj⟩ := List.mem_map.mp h
      exact List.mem_map.mpr ⟨p, (List.mem_filter.mp hp).1, hpj⟩
  · rintro (h | h)
    · exact Or.inl h
    · by_cases hji : j = i
      · exact Or.inl hji
      · right
        obtain ⟨p, hp, hpj⟩ := List.mem_map.mp h
        refine List.mem_map.mpr ⟨p, List.mem_filter.mpr ⟨hp, ?_⟩, hpj⟩
        simp [hpj, hji]

theorem dget_eq_none_of_not_mem_dkeys (d : NDict) (j : Nat) (h : j ∉ dkeys d) :
    dget d j = none := by
  induction d with
  | nil => rfl
  | cons a t ih =>
    simp only [dkeys, List.map_cons, List.mem_cons] at h
    push_neg at h
    have h1 : (j == a.1) = false := by simp [h.1]
    have h2 : dget t j = none := ih (by simpa [dkeys] using h.2)
    simp [dget, List.lookup, h1] at h2 ⊢
    exact h2

/-! ### Heap update lemmas -/

theorem length_hset (H : List SkipNode) (x i : Nat) (v : Option Nat) :
    (hset H x i v).length = H.length := by
  unfold hset
  cases H[x]? with
  | none => rfl
  | some nd => simp

theorem getElem?_hset_ne (H : List SkipNode) (x i : Nat) (v : Option Nat)
    (z : Nat) (hz : z ≠ x) : (hset H x i v)[z]? = H[z]? := by
  unfold hset
  cases H[x]? with
  | none => rfl
  | some nd => simp [List.getElem?_set_ne (Ne.symm hz)]

theorem getElem?_hset_self (H : List SkipNode) (x i : Nat) (v : Option Nat)
    (hx : x < H.length) :
    (hset H x i v)[x]? = some { nodeD H x with next := dset (nodeD H x).next i v } := by
  unfold hset
  have h1 : H[x]? = some H[x] := List.getElem?_eq_getElem hx
  rw [h1]
  simp [List.getElem?_set_self, hx, nodeD, h1]

theorem pairAt_hset (H : List SkipNode) (x i : Nat) (v : Option Nat) (z : Nat) :
    pairAt (hset H x i v) z = pairAt H z := by
  by_cases hz : z = x
  · subst hz
    by_cases hx : z < H.length
    · simp [pairAt, nodeD, getElem?_hset_self H z i v hx]
    · have h1 : H[z]? = none := List.getElem?_eq_none (Nat.le_of_not_lt hx)
      unfold hset
      rw [h1]
  · simp [pairAt, nodeD, getElem?_hset_ne H x i v z hz]

theorem keyAt_hset (H : List SkipNode) (x i : Nat) (v : Option Nat) (z : Nat) :
    keyAt (hset H x i v) z = keyAt H z := by
  simp [keyAt, pairAt_hset]

theorem succAt_hset_ne (H : List SkipNode) (x i : Nat) (v : Option Nat)
    (z j : Nat) (hz : z ≠ x) : succAt (hset H x i v) z j = succAt H z j := by
  simp [succAt, getElem?_hset_ne H x i v z hz]

theorem succAt_hset_self (H : List SkipNode) (x i : Nat) (v : Option Nat)
    (hx : x < H.length) :
    succAt (hset H x i v) x i = some v := by
  simp [succAt, getElem?_hset_self H x i v hx, dget_dset_self]

theorem succAt_hset_self_ne_level (H : List SkipNode) (x i : Nat) (v : Option Nat)
    (j : Nat) (hj : j ≠ i) :
    succAt (hset H x i v) x j = succAt H x j := by
  by_cases hx : x < H.length
  · have h1 : H[x]? = some H[x] := List.getElem?_eq_getElem hx
    simp [succAt, getElem?_hset_self H x i v hx, dget_dset_ne _ _ _ _ hj, nodeD, h1]
  · have h1 : H[x]? = none := List.getElem?_eq_none (Nat.le_of_not_lt hx)
    unfold hset
    rw [h1]

theorem succAt_hset_other_level (H : List SkipNode) (x i : Nat) (v : Option Nat)
    (z j : Nat) (hj : j ≠ i) : succAt (hset H x i v) z j = succAt H z j := by
  by_cases hz : z = x
  · subst hz; exact succAt_hset_self_ne_level H z i v j hj
  · exact succAt_hset_ne H x i v z j hz

/-! ### Heap append lemmas -/

theorem getElem?_append_old (H : List SkipNode) (nd : SkipNode) (z : Nat)
    (hz : z < H.length) : (H ++ [nd])[z]? = H[z]? := by
  rw [List.getElem?_append_left hz]

theorem succAt_append_old (H : List SkipNode) (nd : SkipNode) (z i : Nat)
    (hz : z < H.length) : succAt (H ++ [nd]) z i = succAt H z i := by
  simp [succAt, getElem?_append_old H nd z hz]

theorem pairAt_append_old (H : List SkipNode) (nd : SkipNode) (z : Nat)
    (hz : z < H.length) : pairAt (H ++ [nd]) z = pairAt H z := by
  simp [pairAt, nodeD, getElem?_append_old H nd z hz]

theorem getElem?_append_new (H : List SkipNode) (nd : SkipNode) :
    (H ++ [nd])[H.length]? = some nd := by
  simp

theorem succAt_append_new (H : List SkipNode) (nd : SkipNode) (i : Nat) :
    succAt (H ++ [nd]) H.length i = some (dget nd.next i) := by
  simp [succAt, getElem?_append_new]

/-! ### Chain lemmas -/

/-- `reaches H i x l`: following the level-`i` links from `x` visits exactly
the nodes of `l` and terminates (stated with the minimal sufficient fuel). -/
def reaches (H : List SkipNode) (i x : Nat) (l : List Nat) : Prop :=
  chainF H i (l.length + 1) x = some l

theorem chainF_succ_none {H : List SkipNode} {i x : Nat} (f : Nat)
    (h : succAt H x i = some none) : chainF H i (f + 1) x = some [] := by
  simp [chainF, h]

theorem chainF_succ_some {H : List SkipNode} {i x y : Nat} (f : Nat)
    (h : succAt H x i = some (some y)) :
    chainF H i (f + 1) x = (chainF H i f y).map (y :: ·) := by
  simp [chainF, h]

theorem chainF_nil_inv {H : List SkipNode} {i x f : Nat}
    (h : chainF H i f x = some []) : succAt H x i = some none := by
  cases f with
  | zero => simp [chainF] at h
  | succ f =>
    unfold chainF at h
    cases hs : succAt H x i with
    | none => rw [hs] at h; simp at h
    | some o =>
      cases o with
      | none => rfl
      | some y => rw [hs] at h; simp [chainF] at h

theorem chainF_cons_inv {H : List SkipNode} {i x f y : Nat} {l : List Nat}
    (h : chainF H i f x = some (y :: l)) :
    succAt H x i = some (some y) ∧ chainF H i (f - 1) y = some l := by
  cases f with
  | zero => simp [chainF] at h
  | succ f =>
    unfold chainF at h
    cases hs : succAt H x i with
    | none => rw [hs] at h; simp at h
    | some o =>
      cases o with
      | none => rw [hs] at h; simp at h
      | some z =>
        rw [hs] at h
        simp only [Option.map_eq_some'] at h
        obtain ⟨l', hl', heq⟩ := h
        injection heq with h1 h2
        subst h1
        subst h2
        exact ⟨rfl, by simpa using hl'⟩

theorem chainF_length_lt {H : List SkipNode} {i : Nat} :
    ∀ {f x : Nat} {l : List Nat}, chainF H i f x = some l → l.length < f := by
  intro f
  induction f with
  | zero => intro x l h; simp [chainF] at h
  | succ f ih =>
    intro x l h
    cases l with
    | nil => simp
    | cons y t =>
      obtain ⟨_, h2⟩ := chainF_cons_inv h
      have := ih (x := y) (l := t) (by simpa using h2)
      simpa using Nat.succ_lt_succ this

theorem chainF_mono {H : List SkipNode} {i : Nat} :
    ∀ {f x : Nat} {l : List Nat}, chainF H i f x = some l → ∀ {g}, f ≤ g → chainF H i g x = some l := by
  intro f
  induction f with
  | zero => intro x l h; simp [chainF] at h
  | succ f ih =>
    intro x l h g hg
    obtain ⟨g', rfl⟩ : ∃ g', g = g' + 1 := ⟨g - 1, by omega⟩
    cases l with
    | nil => exact chainF_succ_none g' (chainF_nil_inv h)
    | cons y t =>
      obtain ⟨h1, h2⟩ := chainF_cons_inv h
      rw [chainF_succ_some g' h1]
      rw [ih (by simpa using h2) (g := g') (by omega)]
      rfl

theorem reaches_of_chainF {H : List SkipNode} {i f x : Nat} {l : List Nat}
    (h : chainF H i f x = some l) : reaches H i x l := by
  induction f generalizing x l with
  | zero => simp [chainF] at h
  | succ f ih =>
    cases l with
    | nil => exact chainF_succ_none 0 (chainF_nil_inv h)
    | cons y t =>
      obtain ⟨h1, h2⟩ := chainF_cons_inv h
      have hr := ih (by simpa using h2)
      show chainF H i (t.length + 1 + 1) x = some (y :: t)
      rw [chainF_succ_some (t.length + 1) h1, hr]
      rfl

theorem chainF_of_reaches {H : List SkipNode} {i x : Nat} {l : List Nat}
    (h : reaches H i x l) {g : Nat} (hg : l.length + 1 ≤ g) : chainF H i g x = some l :=
  chainF_mono h hg

theorem reaches_valid {H : List SkipNode} {i : Nat} :
    ∀ {x : Nat} {l : List Nat}, reaches H i x l → ∀ z ∈ l, z < H.length := by
  intro x l
  induction l generalizing x with
  | nil => intro _ z hz; simp at hz
  | cons y t ih =>
    intro h z hz
    obtain ⟨h1, h2⟩ := chainF_cons_inv h
    have hy : y < H.length := by
      have h2' : chainF H i (t.length + 1) y = some t := by simpa using h2
      by_contra hge
      have hnone : H[y]? = none := List.getElem?_eq_none (Nat.le_of_not_lt hge)
      cases t with
      | nil =>
        have := chainF_nil_inv h2'
        rw [succAt, hnone] at this
        simp at this
      | cons w t' =>
        obtain ⟨hw, _⟩ := chainF_cons_inv h2'
        rw [succAt, hnone] at hw
        simp at hw
    rcases List.mem_cons.mp hz with rfl | hz'
    · exact hy
    · exact ih (by simpa [reaches] using h2) z hz'

theorem reaches_congr {H H' : List SkipNode} {i : Nat} :
    ∀ {x : Nat} {l : List Nat}, reaches H i x l →
      (∀ z, z = x ∨ z ∈ l → succAt H' z i = succAt H z i) → reaches H' i x l := by
  intro x l
  induction l generalizing x with
  | nil =>
    intro h hag
    have h1 := chainF_nil_inv h
    show chainF H' i 1 x = some []
    exact chainF_succ_none 0 ((hag x (Or.inl rfl)).trans h1)
  | cons y t ih =>
    intro h hag
    obtain ⟨h1, h2⟩ := chainF_cons_inv h
    have hy : reaches H' i y t :=
      ih (by simpa [reaches] using h2)
        (fun z hz => hag z (Or.inr (List.mem_cons.mpr hz)))
    show chainF H' i (t.length + 1 + 1) x = some (y :: t)
    rw [chainF_succ_some (t.length + 1) ((hag x (Or.inl rfl)).trans h1), hy]
    rfl

/-- The last element of `x :: l` (the node at which a traversal that walked
through `l` starting at `x` stands). -/
def lastD (x : Nat) : List Nat → Nat
  | [] => x
  | y :: t => lastD y t

theorem lastD_mem (x : Nat) (l : List Nat) : lastD x l = x ∨ lastD x l ∈ l := by
  induction l generalizing x with
  | nil => exact Or.inl rfl
  | cons y t ih =>
    rcases ih y with h | h
    · exact Or.inr (by simp [lastD, h])
    · exact Or.inr (by simp [lastD]; exact Or.inr h)

theorem lastD_concat (x : Nat) (a : List Nat) (y : Nat) : lastD x (a ++ [y]) = y := by
  induction a generalizing x with
  | nil => rfl
  | cons z t ih => simp [lastD, ih]

theorem reaches_split {H : List SkipNode} {i : Nat} :
    ∀ {x : Nat} {a b : List Nat}, reaches H i x (a ++ b) → reaches H i (lastD x a) b := by
  intro x a
  induction a generalizing x with
  | nil => intro b h; exact h
  | cons y t ih =>
    intro b h
    obtain ⟨_, h2⟩ := chainF_cons_inv h
    exact ih (reaches_of_chainF (by simpa using h2))

theorem reaches_graft {H H' : List SkipNode} {i : Nat} :
    ∀ {x : Nat} {a b b' : List Nat}, reaches H i x (a ++ b) →
      (x :: a).Nodup →
      (∀ w, (w = x ∨ w ∈ a) → w ≠ lastD x a → succAt H' w i = succAt H w i) →
      reaches H' i (lastD x a) b' →
      reaches H' i x (a ++ b') := by
  intro x a
  induction a generalizing x with
  | nil => intro b b' _ _ _ h2; exact h2
  | cons y t ih =>
    intro b b' h1 hnd hag h2
    obtain ⟨hs, hc⟩ := chainF_cons_inv h1
    have hyr : reaches H i y (t ++ b) := reaches_of_chainF (by simpa using hc)
    have hxne : x ≠ lastD x (y :: t) := by
      show x ≠ lastD y t
      rcases lastD_mem y t with h | h
      · rw [h]
        intro hxy
        subst hxy
        simp at hnd
      · intro hx
        rw [hx] at hnd
        simp at hnd
        exact hnd.1.2 h
    have hnd' : (y :: t).Nodup := (List.nodup_cons.mp hnd).2
    have hag' : ∀ w, (w = y ∨ w ∈ t) → w ≠ lastD y t → succAt H' w i = succAt H w i := by
      intro w hw hwne
      exact hag w (Or.inr (List.mem_cons.mpr hw)) hwne
    have hy' : reaches H' i y (t ++ b') := ih hyr hnd' hag' h2
    show chainF H' i ((t ++ b').length + 1 + 1) x = some (y :: (t ++ b'))
    have hsx : succAt H' x i = some (some y) := by
      rw [hag x (Or.inl rfl) hxne]; exact hs
    rw [chainF_succ_some ((t ++ b').length + 1) hsx, hy']
    rfl

/-! ### Sorted-list helper lemmas (over an abstract key assignment) -/

theorem takeWhile_eq_filter_sorted (κ : Nat → Int) (k : Int) :
    ∀ {l : List Nat}, l.Pairwise (fun a b => κ a ≤ κ b) →
      l.takeWhile (fun z => decide (κ z < k)) = l.filter (fun z => decide (κ z < k)) := by
  intro l
  induction l with
  | nil => intro _; rfl
  | cons a t ih =>
    intro hs
    obtain ⟨ha, ht⟩ := List.pairwise_cons.mp hs
    by_cases h : κ a < k
    · simp [List.takeWhile_cons, List.filter_cons, h, ih ht]
    · have hpa : (decide (κ a < k)) = false := by simp [h]
      rw [List.takeWhile_cons, List.filter_cons, hpa]
      simp only [Bool.false_eq_true, if_false]
      symm
      apply List.filter_eq_nil_iff.mpr
      intro z hz
      simp only [decide_eq_true_eq]
      intro hlt
      exact h (lt_of_le_of_lt (ha z hz) hlt)

theorem dropWhile_eq_filter_sorted (κ : Nat → Int) (k : Int) :
    ∀ {l : List Nat}, l.Pairwise (fun a b => κ a ≤ κ b) →
      l.dropWhile (fun z => decide (κ z < k)) = l.filter (fun z => decide (k ≤ κ z)) := by
  intro l
  induction l with
  | nil => intro _; rfl
  | cons a t ih =>
    intro hs
    obtain ⟨ha, ht⟩ := List.pairwise_cons.mp hs
    by_cases h : κ a < k
    · have : ¬ (k ≤ κ a) := not_le.mpr h
      simp [List.dropWhile_cons, List.filter_cons, h, this, ih ht]
    · have hk : k ≤ κ a := not_lt.mp h
      have hpa : (decide (κ a < k)) = false := by simp [h]
      have hqa : (decide (k ≤ κ a)) = true := by simp [hk]
      rw [List.dropWhile_cons, List.filter_cons, hpa, hqa]
      simp only [Bool.false_eq_true, if_false, if_true]
      congr 1
      symm
      apply List.filter_eq_self.mpr
      intro z hz
      simp only [decide_eq_true_eq]
      exact le_trans hk (ha z hz)

theorem mem_dropWhile_ge (κ : Nat → Int) (k : Int) {l : List Nat}
    (hs : l.Pairwise (fun a b => κ a ≤ κ b)) {z : Nat}
    (hz : z ∈ l.dropWhile (fun z => decide (κ z < k))) : k ≤ κ z := by
  rw [dropWhile_eq_filter_sorted κ k hs] at hz
  have := (List.mem_filter.mp hz).2
  simpa using this

theorem mem_takeWhile_lt (κ : Nat → Int) (k : Int) {l : List Nat} {z : Nat}
    (hz : z ∈ l.takeWhile (fun z => decide (κ z < k))) : κ z < k := by
  have := List.mem_takeWhile_imp hz
  simpa using this

theorem takeWhile_append_all {α : Type} (p : α → Bool) :
    ∀ {a b : List α}, (∀ z ∈ a, p z = true) →
      (a ++ b).takeWhile p = a ++ b.takeWhile p := by
  intro a
  induction a with
  | nil => intro b _; rfl
  | cons x t ih =>
    intro b h
    have hx : p x = true := h x (by simp)
    simp only [List.cons_append, List.takeWhile_cons, hx, if_true]
    rw [ih (fun z hz => h z (by simp [hz]))]

theorem dropWhile_append_all {α : Type} (p : α → Bool) :
    ∀ {a b : List α}, (∀ z ∈ a, p z = true) →
      (a ++ b).dropWhile p = b.dropWhile p := by
  intro a
  induction a with
  | nil => intro b _; rfl
  | cons x t ih =>
    intro b h
    have hx : p x = true := h x (by simp)
    simp only [List.cons_append, List.dropWhile_cons, hx, if_true]
    exact ih (fun z hz => h z (by simp [hz]))

theorem pairwise_insert_mid (κ : Nat → Int) (k : Int) {l : List Nat} {n : Nat}
    (hs : l.Pairwise (fun a b => κ a ≤ κ b)) (hn : κ n = k) :
    (l.takeWhile (fun z => decide (κ z < k)) ++ n :: l.dropWhile (fun z => decide (κ z < k))).Pairwise
      (fun a b => κ a ≤ κ b) := by
  apply List.pairwise_append.mpr
  refine ⟨hs.sublist (List.takeWhile_sublist _), ?_, ?_⟩
  · apply List.pairwise_cons.mpr
    refine ⟨fun z hz => ?_, hs.sublist (List.dropWhile_sublist _)⟩
    rw [hn]
    exact mem_dropWhile_ge κ k hs hz
  · intro z hz w hw
    have hzk : κ z < k := mem_takeWhile_lt κ k hz
    rcases List.mem_cons.mp hw with rfl | hw'
    · rw [hn]; exact le_of_lt hzk
    · exact le_of_lt (lt_of_lt_of_le hzk (mem_dropWhile_ge κ k hs hw'))

theorem pairwise_insert_mid_strict (κ : Nat → Int) (k : Int) {l : List Nat} {n : Nat}
    (hs : l.Pairwise (fun a b => κ a ≤ κ b))
    (hstrict : l.Pairwise (fun a b => κ a < κ b)) (hn : κ n = k)
    (habs : ∀ z ∈ l, κ z ≠ k) :
    (l.takeWhile (fun z => decide (κ z < k)) ++ n :: l.dropWhile (fun z => decide (κ z < k))).Pairwise
      (fun a b => κ a < κ b) := by
  apply List.pairwise_append.mpr
  refine ⟨hstrict.sublist (List.takeWhile_sublist _), ?_, ?_⟩
  · apply List.pairwise_cons.mpr
    refine ⟨fun z hz => ?_, hstrict.sublist (List.dropWhile_sublist _)⟩
    rw [hn]
    have h1 := mem_dropWhile_ge κ k hs hz
    have h2 := habs z ((List.dropWhile_sublist _).subset hz)
    omega
  · intro z hz w hw
    have hzk : κ z < k := mem_takeWhile_lt κ k hz
    rcases List.mem_cons.mp hw with rfl | hw'
    · rw [hn]; exact hzk
    · exact lt_of_lt_of_le hzk (mem_dropWhile_ge κ k hs hw')

theorem key_unique (κ : Nat → Int) :
    ∀ {l : List Nat}, l.Pairwise (fun a b => κ a < κ b) →
      ∀ {a b : Nat}, a ∈ l → b ∈ l → κ a = κ b → a = b := by
  intro l
  induction l with
  | nil => intro _ a b ha; simp at ha
  | cons x t ih =>
    intro hs a b ha hb hab
    obtain ⟨hx, ht⟩ := List.pairwise_cons.mp hs
    rcases List.mem_cons.mp ha with rfl | ha' <;> rcases List.mem_cons.mp hb with rfl | hb'
    · rfl
    · exact absurd hab (by have := hx b hb'; omega)
    · exact absurd hab (by have := hx a ha'; omega)
    · exact ih ht ha' hb' hab

/-! ### The structural invariant -/

/-- The weak structural invariant maintained by every operation (it tolerates
the duplicate keys that repeated `insert`s of one key create): the head exists;
every chain up to the current level terminates; every reachable node links
only at levels up to `SkipList.level`; chains visit no node twice and never
revisit the head; keys are non-decreasing along every chain; each level's
chain is a sublist of the one below. -/
def SLInv (s : SkipList) : Prop :=
  0 < s.nodes.length ∧
  (∀ i, i ≤ s.level → (chainAt s i).isSome = true) ∧
  (∀ j ∈ dkeys (nodeD s.nodes 0).next, j ≤ s.level) ∧
  (∀ x ∈ chainL s 0, ∀ j ∈ dkeys (nodeD s.nodes x).next, j ≤ s.level) ∧
  (∀ i, i ≤ s.level → (0 :: chainL s i).Nodup) ∧
  (∀ i, i ≤ s.level → (chainL s i).Pairwise (fun a b => keyAt s.nodes a ≤ keyAt s.nodes b)) ∧
  (∀ i, i < s.level → (chainL s (i+1)).Sublist (chainL s i))

/-- The full well-formedness predicate of the specification: the weak
invariant, strictly increasing keys at every level (hence unique keys), and
accurate size accounting. -/
def SLWF (s : SkipList) : Prop :=
  SLInv s ∧
  (∀ i, i ≤ s.level → (chainL s i).Pairwise (fun a b => keyAt s.nodes a < keyAt s.nodes b)) ∧
  s.size = ((chainL s 0).length : Int)

theorem inv_hts {s : SkipList} (hInv : SLInv s) :
    ∀ x, x = 0 ∨ x ∈ chainL s 0 → ∀ j ∈ dkeys (nodeD s.nodes x).next, j ≤ s.level := by
  intro x hx j hj
  rcases hx with rfl | hx
  · exact hInv.2.2.1 j hj
  · exact hInv.2.2.2.1 x hx j hj

theorem inv_chain_above {s : SkipList} (hInv : SLInv s) {i : Nat} (hi : s.level < i) :
    chainAt s i = some [] := by
  have hlen := hInv.1
  have h0 : s.nodes[0]? = some s.nodes[0] := List.getElem?_eq_getElem hlen
  have hkeys : i ∉ dkeys (nodeD s.nodes 0).next := by
    intro hmem
    exact absurd (inv_hts hInv 0 (Or.inl rfl) i hmem) (by omega)
  have hdg : dget (nodeD s.nodes 0).next i = none :=
    dget_eq_none_of_not_mem_dkeys _ _ hkeys
  have hsucc : succAt s.nodes 0 i = some none := by
    rw [succAt, h0]
    simp only [Option.map_some']
    rw [show s.nodes[0] = nodeD s.nodes 0 from by simp [nodeD, h0], hdg]
  exact chainF_succ_none _ hsucc

theorem inv_chainAt {s : SkipList} (hInv : SLInv s) (i : Nat) :
    chainAt s i = some (chainL s i) := by
  by_cases hi : i ≤ s.level
  · have := hInv.2.1 i hi
    cases h : chainAt s i with
    | none => rw [h] at this; simp at this
    | some l => simp [chainL, h]
  · have h := inv_chain_above hInv (Nat.lt_of_not_le hi)
    simp [chainL, h]

theorem inv_reaches {s : SkipList} (hInv : SLInv s) (i : Nat) :
    reaches s.nodes i 0 (chainL s i) :=
  reaches_of_chainF (inv_chainAt hInv i)

theorem inv_chain_above_nil {s : SkipList} (hInv : SLInv s) {i : Nat} (hi : s.level < i) :
    chainL s i = [] := by
  simp [chainL, inv_chain_above hInv hi]

theorem inv_nodup {s : SkipList} (hInv : SLInv s) (i : Nat) :
    (0 :: chainL s i).Nodup := by
  by_cases hi : i ≤ s.level
  · exact hInv.2.2.2.2.1 i hi
  · rw [inv_chain_above_nil hInv (Nat.lt_of_not_le hi)]
    simp

theorem inv_sorted {s : SkipList} (hInv : SLInv s) (i : Nat) :
    (chainL s i).Pairwise (fun a b => keyAt s.nodes a ≤ keyAt s.nodes b) := by
  by_cases hi : i ≤ s.level
  · exact hInv.2.2.2.2.2.1 i hi
  · rw [inv_chain_above_nil hInv (Nat.lt_of_not_le hi)]
    exact List.Pairwise.nil

theorem inv_subset {s : SkipList} (hInv : SLInv s) (i : Nat) :
    (chainL s (i+1)).Sublist (chainL s i) := by
  by_cases hi : i < s.level
  · exact hInv.2.2.2.2.2.2 i hi
  · rw [inv_chain_above_nil hInv (by omega)]
    exact List.nil_sublist _

theorem inv_chain_sub0 {s : SkipList} (hInv : SLInv s) (i : Nat) :
    (chainL s i).Sublist (chainL s 0) := by
  induction i with
  | zero => exact List.Sublist.refl _
  | succ j ih => exact (inv_subset hInv j).trans ih

theorem inv_valid {s : SkipList} (hInv : SLInv s) {i z : Nat} (hz : z ∈ chainL s i) :
    z < s.nodes.length :=
  reaches_valid (inv_reaches hInv i) z hz

theorem inv_mem_ne_zero {s : SkipList} (hInv : SLInv s) {i z : Nat} (hz : z ∈ chainL s i) :
    z ≠ 0 := by
  intro h
  subst h
  exact (List.nodup_cons.mp (inv_nodup hInv i)).1 hz

theorem inv_chain_len {s : SkipList} (hInv : SLInv s) (i : Nat) :
    (chainL s i).length < s.nodes.length := by
  have hnd : (0 :: chainL s i).Nodup := inv_nodup hInv i
  have hsub : (0 :: chainL s i) ⊆ List.range s.nodes.length := by
    intro z hz
    rcases List.mem_cons.mp hz with rfl | hz'
    · exact List.mem_range.mpr hInv.1
    · exact List.mem_range.mpr (inv_valid hInv hz')
  have := (List.subperm_of_subset hnd hsub).length_le
  simp at this
  omega

theorem wf_sorted_strict {s : SkipList} (hwf : SLWF s) (i : Nat) :
    (chainL s i).Pairwise (fun a b => keyAt s.nodes a < keyAt s.nodes b) := by
  by_cases hi : i ≤ s.level
  · exact hwf.2.1 i hi
  · rw [inv_chain_above_nil hwf.1 (Nat.lt_of_not_le hi)]
    exact List.Pairwise.nil

instance (s : SkipList) : Decidable (SLInv s) := by
  unfold SLInv
  exact inferInstance

instance (s : SkipList) : Decidable (SLWF s) := by
  unfold SLWF SLInv
  exact inferInstance

/-! ### More heap-update transport lemmas -/

theorem dkeys_nodeD_hset (H : List SkipNode) (x i : Nat) (v : Option Nat) (z j : Nat)
    (hj : j ∈ dkeys (nodeD (hset H x i v) z).next) :
    j ∈ dkeys (nodeD H z).next ∨ j = i := by
  by_cases hz : z = x
  · subst hz
    by_cases hx : z < H.length
    · rw [nodeD, getElem?_hset_self H z i v hx] at hj
      simp only [Option.getD_some] at hj
      rcases (mem_dkeys_dset _ _ _ _).mp hj with h | h
      · exact Or.inr h
      · exact Or.inl h
    · have h1 : H[z]? = none := List.getElem?_eq_none (Nat.le_of_not_lt hx)
      rw [show hset H z i v = H from by unfold hset; rw [h1]] at hj
      exact Or.inl hj
  · rw [nodeD, getElem?_hset_ne H x i v z hz] at hj
    exact Or.inl hj

theorem keyAt_hset_fun (H : List SkipNode) (x i : Nat) (v : Option Nat) :
    keyAt (hset H x i v) = keyAt H :=
  funext (keyAt_hset H x i v)

/-! ### Characterization of the `__getitem__` inner loop -/

theorem dropWhile_head_not {α : Type} (p : α → Bool) :
    ∀ {l : List α} {z : α} {r : List α}, l.dropWhile p = z :: r → p z = false := by
  intro l
  induction l with
  | nil => intro z r h; simp [List.dropWhile] at h
  | cons a t ih =>
    intro z r h
    rw [List.dropWhile_cons] at h
    by_cases hp : p a = true
    · rw [if_pos hp] at h
      exact ih h
    · rw [if_neg hp] at h
      injection h with h1 _
      subst h1
      simpa using hp

theorem getitemLoop_run_break {H : List SkipNode} {k : Int} {i : Nat} :
    ∀ {suf : List Nat} {x fuel : Nat}, reaches H i x suf → suf.length < fuel →
      suf.dropWhile (fun z => decide (keyAt H z < k)) = [] →
      getitemLoop H k i fuel x = some (Sum.inr (lastD x suf)) := by
  intro suf
  induction suf with
  | nil =>
    intro x fuel hr hf _
    obtain ⟨fuel', rfl⟩ : ∃ f, fuel = f + 1 := ⟨fuel - 1, by omega⟩
    have h1 := chainF_nil_inv hr
    simp [getitemLoop, h1, lastD]
  | cons y t ih =>
    intro x fuel hr hf hdrop
    obtain ⟨fuel', rfl⟩ : ∃ f, fuel = f + 1 := ⟨fuel - 1, by omega⟩
    obtain ⟨h1, h2⟩ := chainF_cons_inv hr
    have hy : y < H.length := reaches_valid hr y (by simp)
    have hyd : H[y]? = some (nodeD H y) := by
      simp [nodeD, List.getElem?_eq_getElem hy]
    have hkey : keyAt H y < k := by
      by_contra hge
      rw [List.dropWhile_cons, if_neg (by simpa using hge)] at hdrop
      simp at hdrop
    rw [List.dropWhile_cons, if_pos (by simpa using hkey)] at hdrop
    simp only [getitemLoop, h1, hyd]
    have hk1 : ¬ (k < (nodeD H y).pair.key) := by
      have : (nodeD H y).pair.key = keyAt H y := rfl
      omega
    have hk2 : ¬ ((nodeD H y).pair.key = k) := by
      have : (nodeD H y).pair.key = keyAt H y := rfl
      omega
    rw [if_neg hk1, if_neg hk2]
    have := @ih y fuel' (reaches_of_chainF (by simpa using h2)) (by simp at hf; omega) hdrop
    rw [this]
    rfl

theorem getitemLoop_run_found {H : List SkipNode} {k : Int} {i : Nat} :
    ∀ {suf : List Nat} {x fuel : Nat} {z : Nat} {r : List Nat},
      reaches H i x suf → suf.length < fuel →
      suf.dropWhile (fun w => decide (keyAt H w < k)) = z :: r →
      keyAt H z = k →
      getitemLoop H k i fuel x = some (Sum.inl (valueAt H z)) := by
  intro suf
  induction suf with
  | nil => intro x fuel z r _ _ hdrop; simp [List.dropWhile] at hdrop
  | cons y t ih =>
    intro x fuel z r hr hf hdrop hkz
    obtain ⟨fuel', rfl⟩ : ∃ f, fuel = f + 1 := ⟨fuel - 1, by omega⟩
    obtain ⟨h1, h2⟩ := chainF_cons_inv hr
    have hy : y < H.length := reaches_valid hr y (by simp)
    have hyd : H[y]? = some (nodeD H y) := by
      simp [nodeD, List.getElem?_eq_getElem hy]
    by_cases hkey : keyAt H y < k
    · rw [List.dropWhile_cons, if_pos (by simpa using hkey)] at hdrop
      simp only [getitemLoop, h1, hyd]
      have hk1 : ¬ (k < (nodeD H y).pair.key) := by
        have : (nodeD H y).pair.key = keyAt H y := rfl
        omega
      have hk2 : ¬ ((nodeD H y).pair.key = k) := by
        have : (nodeD H y).pair.key = keyAt H y := rfl
        omega
      rw [if_neg hk1, if_neg hk2]
      exact ih (reaches_of_chainF (by simpa using h2)) (by simp at hf; omega) hdrop hkz
    · rw [List.dropWhile_cons, if_neg (by simpa using hkey)] at hdrop
      injection hdrop with hz _
      subst hz
      simp only [getitemLoop, h1, hyd]
      have hk1 : ¬ (k < (nodeD H y).pair.key) := by
        have : (nodeD H y).pair.key = keyAt H y := rfl
        omega
      have hk2 : (nodeD H y).pair.key = k := hkz
      rw [if_neg hk1, if_pos hk2]
      rfl

theorem getitemLoop_run_stop {H : List SkipNode} {k : Int} {i : Nat} :
    ∀ {suf : List Nat} {x fuel : Nat} {z : Nat} {r : List Nat},
      reaches H i x suf → suf.length < fuel →
      suf.dropWhile (fun w => decide (keyAt H w < k)) = z :: r →
      k < keyAt H z →
      getitemLoop H k i fuel x =
        some (Sum.inr (lastD x (suf.takeWhile (fun w => decide (keyAt H w < k))))) := by
  intro suf
  induction suf with
  | nil => intro x fuel z r _ _ hdrop; simp [List.dropWhile] at hdrop
  | cons y t ih =>
    intro x fuel z r hr hf hdrop hkz
    obtain ⟨fuel', rfl⟩ : ∃ f, fuel = f + 1 := ⟨fuel - 1, by omega⟩
    obtain ⟨h1, h2⟩ := chainF_cons_inv hr
    have hy : y < H.length := reaches_valid hr y (by simp)
    have hyd : H[y]? = some (nodeD H y) := by
      simp [nodeD, List.getElem?_eq_getElem hy]
    by_cases hkey : keyAt H y < k
    · rw [List.dropWhile_cons, if_pos (by simpa using hkey)] at hdrop
      simp only [getitemLoop, h1, hyd]
      have hk1 : ¬ (k < (nodeD H y).pair.key) := by
        have : (nodeD H y).pair.key = keyAt H y := rfl
        omega
      have hk2 : ¬ ((nodeD H y).pair.key = k) := by
        have : (nodeD H y).pair.key = keyAt H y := rfl
        omega
      rw [if_neg hk1, if_neg hk2, List.takeWhile_cons, if_pos (by simpa using hkey)]
      exact ih (reaches_of_chainF (by simpa using h2)) (by simp at hf; omega) hdrop hkz
    · rw [List.dropWhile_cons, if_neg (by simpa using hkey)] at hdrop
      injection hdrop with hz _
      subst hz
      simp only [getitemLoop, h1, hyd]
      have hk1 : k < (nodeD H y).pair.key := hkz
      rw [if_pos hk1, List.takeWhile_cons, if_neg (by simpa using hkey)]
      rfl

/-! ### Characterization of the `insert` inner loop -/

theorem insertLoop_run {H : List SkipNode} {k : Int} {i : Nat} :
    ∀ {suf : List Nat} {x fuel : Nat}, reaches H i x suf → suf.length < fuel →
      insertLoop H k i fuel x =
        some (lastD x (suf.takeWhile (fun w => decide (keyAt H w < k)))) := by
  intro suf
  induction suf with
  | nil =>
    intro x fuel hr hf
    obtain ⟨fuel', rfl⟩ : ∃ f, fuel = f + 1 := ⟨fuel - 1, by omega⟩
    have h1 := chainF_nil_inv hr
    simp [insertLoop, h1, lastD]
  | cons y t ih =>
    intro x fuel hr hf
    obtain ⟨fuel', rfl⟩ : ∃ f, fuel = f + 1 := ⟨fuel - 1, by omega⟩
    obtain ⟨h1, h2⟩ := chainF_cons_inv hr
    have hy : y < H.length := reaches_valid hr y (by simp)
    have hyd : H[y]? = some (nodeD H y) := by
      simp [nodeD, List.getElem?_eq_getElem hy]
    simp only [insertLoop, h1, hyd]
    by_cases hkey : keyAt H y < k
    · have hk1 : (nodeD H y).pair.key < k := hkey
      rw [if_pos hk1, List.takeWhile_cons, if_pos (by simpa using hkey)]
      exact ih (reaches_of_chainF (by simpa using h2)) (by simp at hf; omega)
    · have hk1 : ¬ ((nodeD H y).pair.key < k) := hkey
      rw [if_neg hk1, List.takeWhile_cons, if_neg (by simpa using hkey)]
      rfl

/-! ### Characterization of the `delete` inner loop -/

theorem deleteLoop_run {k : Int} {i : Nat} :
    ∀ {suf : List Nat} {H : List SkipNode} {x : Nat} {del : Bool} {fuel : Nat},
      reaches H i x suf →
      x < H.length →
      (x :: suf).Nodup →
      suf.Pairwise (fun a b => keyAt H a ≤ keyAt H b) →
      suf.length < fuel →
      ∃ H', deleteLoop k i fuel H x del =
          some (H', lastD x (suf.takeWhile (fun w => decide (keyAt H w < k))),
                (del || suf.any (fun w => keyAt H w == k))) ∧
        H'.length = H.length ∧
        (∀ z, pairAt H' z = pairAt H z) ∧
        (∀ z j, j ≠ i → succAt H' z j = succAt H z j) ∧
        (∀ z, z ∉ (x :: suf) → succAt H' z i = succAt H z i) ∧
        (∀ z j, j ∈ dkeys (nodeD H' z).next → j ∈ dkeys (nodeD H z).next ∨ j = i) ∧
        reaches H' i x (suf.filter (fun w => !(keyAt H w == k))) ∧
        (suf.any (fun w => keyAt H w == k) = false → H' = H) := by
  intro suf
  induction suf with
  | nil =>
    intro H x del fuel hr hx hnd hs hf
    obtain ⟨f, rfl⟩ : ∃ f, fuel = f + 1 := ⟨fuel - 1, by omega⟩
    have h1 := chainF_nil_inv hr
    refine ⟨H, ?_, rfl, fun z => rfl, fun z j _ => rfl, fun z _ => rfl,
      fun z j hj => Or.inl hj, hr, fun _ => rfl⟩
    simp [deleteLoop, h1, lastD]
  | cons y t ih =>
    intro H x del fuel hr hx hnd hs hf
    obtain ⟨f, rfl⟩ : ∃ f, fuel = f + 1 := ⟨fuel - 1, by omega⟩
    obtain ⟨h1, h2'⟩ := chainF_cons_inv hr
    have h2 : reaches H i y t := reaches_of_chainF (by simpa using h2')
    have hy : y < H.length := reaches_valid hr y (by simp)
    have hyd : H[y]? = some (nodeD H y) := by
      simp [nodeD, List.getElem?_eq_getElem hy]
    have hxny : x ≠ y := by
      intro h
      rw [h] at hnd
      simp at hnd
    have hxnt : x ∉ t := by
      intro h
      simp at hnd
      exact hnd.1.2 h
    have hsorted_t : t.Pairwise (fun a b => keyAt H a ≤ keyAt H b) :=
      (List.pairwise_cons.mp hs).2
    have hyt : ∀ z ∈ t, keyAt H y ≤ keyAt H z := (List.pairwise_cons.mp hs).1
    rcases lt_trichotomy (keyAt H y) k with hkey | hkey | hkey
    · -- advance past a smaller key
      have hnd' : (y :: t).Nodup := (List.nodup_cons.mp hnd).2
      obtain ⟨H', hrun, hlen, hpair, hother, hout, hdk, hreach, hnosp⟩ :=
        @ih H y del f h2 hy hnd' hsorted_t (by simp at hf; omega)
      have hyk_ne : (keyAt H y == k) = false := by
        simp
        omega
      refine ⟨H', ?_, hlen, hpair, hother, ?_, hdk, ?_, ?_⟩
      · simp only [deleteLoop, h1, hyd]
        rw [if_neg (show ¬ (k < (nodeD H y).pair.key) from by
              have : (nodeD H y).pair.key = keyAt H y := rfl
              omega),
            if_neg (show ¬ ((nodeD H y).pair.key = k) from by
              have : (nodeD H y).pair.key = keyAt H y := rfl
              omega)]
        rw [hrun]
        rw [List.takeWhile_cons, if_pos (by simpa using hkey)]
        simp [hyk_ne, lastD]
      · intro z hz
        exact hout z (by simp at hz ⊢; tauto)
      · rw [List.filter_cons, show (!(keyAt H y == k)) = true from by simp [hyk_ne]]
        show chainF H' i _ x = _
        rw [chainF_succ_some _ (by rw [hout x (by simp; tauto)]; exact h1)]
        rw [chainF_of_reaches hreach (by simp)]
        rfl
      · intro h
        simp only [List.any_cons, Bool.or_eq_false_iff] at h
        exact hnosp h.2
    · -- splice out an equal key
      set v := dget (nodeD H y).next i with hv
      set H2 := hset H x i v with hH2
      have hsuccy : succAt H y i = some v := by
        rw [succAt, hyd]
        rfl
      have hx2 : x < H2.length := by rw [hH2, length_hset]; exact hx
      have hreach2 : reaches H2 i x t := by
        cases t with
        | nil =>
          have hvnone : v = none := by
            have := chainF_nil_inv h2
            rw [hsuccy] at this
            injection this
          show chainF H2 i 1 x = some []
          exact chainF_succ_none 0 (by rw [hH2, succAt_hset_self H x i v hx, hvnone])
        | cons w t' =>
          obtain ⟨hw1, hw2⟩ := chainF_cons_inv h2
          have hvw : v = some w := by
            rw [hsuccy] at hw1
            injection hw1
          have hwreach : reaches H i w t' := reaches_of_chainF (by simpa using hw2)
          have hwreach2 : reaches H2 i w t' := by
            apply reaches_congr hwreach
            intro z hz
            apply succAt_hset_ne
            intro hzx
            subst hzx
            rcases hz with rfl | hz
            · exact hxnt (by simp)
            · exact hxnt (by simp [hz])
          show chainF H2 i (t'.length + 1 + 1) x = some (w :: t')
          rw [chainF_succ_some _ (by rw [hH2, succAt_hset_self H x i v hx, hvw]),
              chainF_of_reaches hwreach2 (by omega)]
          rfl
      have hnd2 : (x :: t).Nodup := by
        have : (x :: t).Sublist (x :: y :: t) := by
          apply List.Sublist.cons₂
          exact List.sublist_cons_self y t
        exact this.nodup hnd
      have hkfun : keyAt H2 = keyAt H := keyAt_hset_fun H x i v
      have hsorted2 : t.Pairwise (fun a b => keyAt H2 a ≤ keyAt H2 b) := by
        rw [hkfun]
        exact hsorted_t
      obtain ⟨H', hrun, hlen, hpair, hother, hout, hdk, hreach, hnosp⟩ :=
        @ih H2 x true f hreach2 hx2 hnd2 hsorted2
          (by simp at hf; omega)
      rw [hkfun] at hrun hreach
      have htake_nil : t.takeWhile (fun w => decide (keyAt H w < k)) = [] := by
        cases t with
        | nil => rfl
        | cons w t' =>
          rw [List.takeWhile_cons, if_neg]
          simp only [decide_eq_true_eq, not_lt]
          have := hyt w (by simp)
          omega
      refine ⟨H', ?_, ?_, ?_, ?_, ?_, ?_, ?_, ?_⟩
      · simp only [deleteLoop, h1, hyd]
        rw [if_neg (show ¬ (k < (nodeD H y).pair.key) from by
              have : (nodeD H y).pair.key = keyAt H y := rfl
              omega),
            if_pos (show (nodeD H y).pair.key = k from hkey)]
        rw [← hv, ← hH2, hrun]
        rw [List.takeWhile_cons, if_neg (by simp [hkey]), htake_nil]
        simp [lastD, hkey]
      · rw [hlen, hH2, length_hset]
      · intro z
        rw [hpair z, hH2, pairAt_hset]
      · intro z j hj
        rw [hother z j hj, hH2, succAt_hset_other_level H x i v z j hj]
      · intro z hz
        have hz2 : z ∉ x :: t := by
          simp at hz ⊢
          tauto
        rw [hout z hz2, hH2]
        apply succAt_hset_ne
        simp at hz
        tauto
      · intro z j hj
        rcases hdk z j hj with h | h
        · rw [hH2] at h
          exact dkeys_nodeD_hset H x i v z j h
        · exact Or.inr h
      · rw [List.filter_cons, show (!(keyAt H y == k)) = false from by simp [hkey]]
        exact hreach
      · intro h
        simp [hkey] at h
    · -- break on a larger key
      have hall_ne : ∀ z ∈ y :: t, (keyAt H z == k) = false := by
        intro z hz
        simp only [beq_eq_false_iff_ne, ne_eq]
        rcases List.mem_cons.mp hz with rfl | hz'
        · omega
        · have := hyt z hz'
          omega
      have hany : (y :: t).any (fun w => keyAt H w == k) = false := by
        apply List.any_eq_false.mpr
        intro z hz
        simp only [Bool.not_eq_true]
        exact hall_ne z hz
      refine ⟨H, ?_, rfl, fun z => rfl, fun z j _ => rfl, fun z _ => rfl,
        fun z j hj => Or.inl hj, ?_, fun _ => rfl⟩
      · simp only [deleteLoop, h1, hyd]
        rw [if_pos (show k < (nodeD H y).pair.key from hkey)]
        rw [List.takeWhile_cons, if_neg (by simp; omega), hany]
        simp [lastD]
      · rw [List.filter_eq_self.mpr]
        · exact hr
        · intro z hz
          simp only [Bool.not_eq_true']
          exact hall_ne z hz

/-! ### Per-level traversal position -/

/-- On a well-formed list, a traversal pointer `x` that is the head or a
chain-`i` node with key `< k` splits the level-`i` chain into a fully-scanned
part ending at `x` (all keys `< k`) and the part still reachable from `x`. -/
theorem inv_pos_split {s : SkipList} {k : Int} (hInv : SLInv s) (i : Nat) {x : Nat}
    (hx : x = 0 ∨ (x ∈ chainL s i ∧ keyAt s.nodes x < k)) :
    ∃ pre suf, chainL s i = pre ++ suf ∧ lastD 0 pre = x ∧
      reaches s.nodes i x suf ∧
      (∀ z ∈ pre, keyAt s.nodes z < k) ∧
      (x :: suf).Sublist (0 :: chainL s i) := by
  rcases hx with rfl | ⟨hmem, hkx⟩
  · exact ⟨[], chainL s i, rfl, rfl, inv_reaches hInv i, by simp, List.Sublist.refl _⟩
  · obtain ⟨a, b, hab⟩ := List.append_of_mem hmem
    refine ⟨a ++ [x], b, by rw [hab, List.append_assoc]; rfl, lastD_concat 0 a x, ?_, ?_, ?_⟩
    · have : reaches s.nodes i (lastD 0 (a ++ [x])) b := by
        apply reaches_split (a := a ++ [x])
        rw [show (a ++ [x]) ++ b = chainL s i from by rw [hab, List.append_assoc]; rfl]
        exact inv_reaches hInv i
      rwa [lastD_concat 0 a x] at this
    · intro z hz
      rcases List.mem_append.mp hz with hz' | hz'
      · have hsort := inv_sorted hInv i
        rw [hab] at hsort
        have := (List.pairwise_append.mp hsort).2.2 z hz' x (by simp)
        omega
      · rw [List.mem_singleton.mp hz']
        exact hkx
    · rw [hab]
      have : (0 :: (a ++ x :: b)) = (0 :: a) ++ (x :: b) := by simp
      rw [this]
      exact List.sublist_append_right _ _

/-! ### Lookup: descent characterizations -/

theorem getitemLevels_absent {s : SkipList} {k : Int} (hInv : SLInv s)
    (hk : ∀ z ∈ chainL s 0, keyAt s.nodes z ≠ k) :
    ∀ i, i ≤ s.level → ∀ x, (x = 0 ∨ (x ∈ chainL s i ∧ keyAt s.nodes x < k)) →
      getitemLevels s.nodes k (s.nodes.length + 1) i x = some none := by
  intro i
  induction i with
  | zero =>
    intro _ x hx
    obtain ⟨pre, suf, hchain, hlast, hreach, hpre, hsub⟩ := inv_pos_split hInv 0 hx
    have hflen : suf.length < s.nodes.length + 1 := by
      have h1 : suf.length ≤ (chainL s 0).length := by
        rw [hchain]; simp
      have := inv_chain_len hInv 0
      omega
    have hsufsub : suf ⊆ chainL s 0 := by
      intro z hz
      rw [hchain]
      exact List.mem_append.mpr (Or.inr hz)
    cases hdrop : suf.dropWhile (fun w => decide (keyAt s.nodes w < k)) with
    | nil =>
      have := getitemLoop_run_break hreach hflen hdrop
      simp only [getitemLevels, this]
    | cons z r =>
      have hzmem : z ∈ suf := (List.dropWhile_sublist _).subset (by rw [hdrop]; simp)
      have hzne : keyAt s.nodes z ≠ k := hk z (hsufsub hzmem)
      have hznlt : ¬ (keyAt s.nodes z < k) := by
        have := dropWhile_head_not _ hdrop
        simpa using this
      have hzgt : k < keyAt s.nodes z := by omega
      have := getitemLoop_run_stop hreach hflen hdrop hzgt
      simp only [getitemLevels, this]
  | succ j ih =>
    intro hij x hx
    obtain ⟨pre, suf, hchain, hlast, hreach, hpre, hsub⟩ := inv_pos_split hInv (j+1) hx
    have hflen : suf.length < s.nodes.length + 1 := by
      have h1 : suf.length ≤ (chainL s (j+1)).length := by
        rw [hchain]; simp
      have := inv_chain_len hInv (j+1)
      omega
    have hsufsub : suf ⊆ chainL s (j+1) := by
      intro z hz
      rw [hchain]
      exact List.mem_append.mpr (Or.inr hz)
    have hnext : ∀ x', (x' = x ∨ x' ∈ suf.takeWhile (fun w => decide (keyAt s.nodes w < k))) →
        x' = 0 ∨ (x' ∈ chainL s j ∧ keyAt s.nodes x' < k) := by
      intro x' hx'
      rcases hx' with rfl | hx'
      · rcases hx with rfl | ⟨hmem, hkx⟩
        · exact Or.inl rfl
        · exact Or.inr ⟨(inv_subset hInv j).subset hmem, hkx⟩
      · refine Or.inr ⟨(inv_subset hInv j).subset (hsufsub ((List.takeWhile_sublist _).subset hx')),
          mem_takeWhile_lt (keyAt s.nodes) k hx'⟩
    cases hdrop : suf.dropWhile (fun w => decide (keyAt s.nodes w < k)) with
    | nil =>
      have hrun := getitemLoop_run_break hreach hflen hdrop
      simp only [getitemLevels, hrun]
      have htake : suf.takeWhile (fun w => decide (keyAt s.nodes w < k)) = suf := by
        have := List.takeWhile_append_dropWhile (l := suf) (p := fun w => decide (keyAt s.nodes w < k))
        rw [hdrop] at this
        simpa using this
      apply ih (by omega)
      apply hnext
      rcases lastD_mem x suf with h | h
      · exact Or.inl h
      · exact Or.inr (by rw [htake]; exact h)
    | cons z r =>
      have hzmem : z ∈ suf := (List.dropWhile_sublist _).subset (by rw [hdrop]; simp)
      have hzne : keyAt s.nodes z ≠ k :=
        hk z (inv_chain_sub0 hInv (j+1) |>.subset (hsufsub hzmem))
      have hznlt : ¬ (keyAt s.nodes z < k) := by
        have := dropWhile_head_not _ hdrop
        simpa using this
      have hzgt : k < keyAt s.nodes z := by omega
      have hrun := getitemLoop_run_stop hreach hflen hdrop hzgt
      simp only [getitemLevels, hrun]
      apply ih (by omega)
      apply hnext
      exact lastD_mem x _

theorem getitemLevels_found {s : SkipList} {k : Int} (hwf : SLWF s) {zf : Nat}
    (hzf : zf ∈ chainL s 0) (hkf : keyAt s.nodes zf = k) :
    ∀ i, i ≤ s.level → ∀ x, (x = 0 ∨ (x ∈ chainL s i ∧ keyAt s.nodes x < k)) →
      getitemLevels s.nodes k (s.nodes.length + 1) i x =
        some (some (valueAt s.nodes zf)) := by
  have hInv := hwf.1
  intro i
  induction i with
  | zero =>
    intro _ x hx
    obtain ⟨pre, suf, hchain, hlast, hreach, hpre, hsub⟩ := inv_pos_split hInv 0 hx
    have hflen : suf.length < s.nodes.length + 1 := by
      have h1 : suf.length ≤ (chainL s 0).length := by
        rw [hchain]; simp
      have := inv_chain_len hInv 0
      omega
    have hzfsuf : zf ∈ suf := by
      have : zf ∈ pre ++ suf := by rw [← hchain]; exact hzf
      rcases List.mem_append.mp this with h | h
      · exact absurd hkf (by have := hpre zf h; omega)
      · exact h
    have hsufsorted : suf.Pairwise (fun a b => keyAt s.nodes a ≤ keyAt s.nodes b) := by
      have := inv_sorted hInv 0
      rw [hchain] at this
      exact (List.pairwise_append.mp this).2.1
    cases hdrop : suf.dropWhile (fun w => decide (keyAt s.nodes w < k)) with
    | nil =>
      exfalso
      have : ∀ z ∈ suf, decide (keyAt s.nodes z < k) = true :=
        List.dropWhile_eq_nil_iff.mp hdrop
      have := this zf hzfsuf
      simp [hkf] at this
    | cons z r =>
      have hzmem : z ∈ suf := (List.dropWhile_sublist _).subset (by rw [hdrop]; simp)
      have hznlt : ¬ (keyAt s.nodes z < k) := by
        have := dropWhile_head_not _ hdrop
        simpa using this
      have hzk : keyAt s.nodes z = k := by
        by_contra hne
        have hzgt : k < keyAt s.nodes z := by omega
        -- zf is in suf; it is neither in the takeWhile part (key = k) nor in
        -- the dropWhile part (keys > k), contradiction
        have hsplit := List.takeWhile_append_dropWhile
          (l := suf) (p := fun w => decide (keyAt s.nodes w < k))
        rw [hdrop] at hsplit
        have : zf ∈ suf.takeWhile (fun w => decide (keyAt s.nodes w < k)) ++ z :: r := by
          rw [hsplit]; exact hzfsuf
        rcases List.mem_append.mp this with h | h
        · have := mem_takeWhile_lt (keyAt s.nodes) k h
          omega
        · have hsort2 : (z :: r).Pairwise (fun a b => keyAt s.nodes a ≤ keyAt s.nodes b) := by
          -- the dropWhile part of a sorted list is sorted
            rw [← hdrop]
            exact hsufsorted.sublist (List.dropWhile_sublist _)
          rcases List.mem_cons.mp h with rfl | h'
          · omega
          · have := (List.pairwise_cons.mp hsort2).1 zf h'
            omega
      have hrun := getitemLoop_run_found hreach hflen hdrop hzk
      have hzzf : z = zf := by
        apply key_unique (keyAt s.nodes) (wf_sorted_strict hwf 0)
          ((List.Sublist.subset (by rw [hchain]; exact List.sublist_append_right _ _)) hzmem)
          hzf
        rw [hzk, hkf]
      subst hzzf
      simp only [getitemLevels, hrun]
  | succ j ih =>
    intro hij x hx
    obtain ⟨pre, suf, hchain, hlast, hreach, hpre, hsub⟩ := inv_pos_split hInv (j+1) hx
    have hflen : suf.length < s.nodes.length + 1 := by
      have h1 : suf.length ≤ (chainL s (j+1)).length := by
        rw [hchain]; simp
      have := inv_chain_len hInv (j+1)
      omega
    have hsufsub : suf ⊆ chainL s (j+1) := by
      intro z hz
      rw [hchain]
      exact List.mem_append.mpr (Or.inr hz)
    have hnext : ∀ x', (x' = x ∨ x' ∈ suf.takeWhile (fun w => decide (keyAt s.nodes w < k))) →
        x' = 0 ∨ (x' ∈ chainL s j ∧ keyAt s.nodes x' < k) := by
      intro x' hx'
      rcases hx' with rfl | hx'
      · rcases hx with rfl | ⟨hmem, hkx⟩
        · exact Or.inl rfl
        · exact Or.inr ⟨(inv_subset hInv j).subset hmem, hkx⟩
      · refine Or.inr ⟨(inv_subset hInv j).subset (hsufsub ((List.takeWhile_sublist _).subset hx')),
          mem_takeWhile_lt (keyAt s.nodes) k hx'⟩
    cases hdrop : suf.dropWhile (fun w => decide (keyAt s.nodes w < k)) with
    | nil =>
      have hrun := getitemLoop_run_break hreach hflen hdrop
      simp only [getitemLevels, hrun]
      have htake : suf.takeWhile (fun w => decide (keyAt s.nodes w < k)) = suf := by
        have := List.takeWhile_append_dropWhile (l := suf) (p := fun w => decide (keyAt s.nodes w < k))
        rw [hdrop] at this
        simpa using this
      apply ih (by omega)
      apply hnext
      rcases lastD_mem x suf with h | h
      · exact Or.inl h
      · exact Or.inr (by rw [htake]; exact h)
    | cons z r =>
      have hzmem : z ∈ suf := (List.dropWhile_sublist _).subset (by rw [hdrop]; simp)
      have hznlt : ¬ (keyAt s.nodes z < k) := by
        have := dropWhile_head_not _ hdrop
        simpa using this
      by_cases hzk : keyAt s.nodes z = k
      · have hrun := getitemLoop_run_found hreach hflen hdrop hzk
        have hzzf : z = zf := by
          apply key_unique (keyAt s.nodes) (wf_sorted_strict hwf 0)
            ((inv_chain_sub0 hInv (j+1)).subset (hsufsub hzmem)) hzf
          rw [hzk, hkf]
        subst hzzf
        simp only [getitemLevels, hrun]
      · have hzgt : k < keyAt s.nodes z := by omega
        have hrun := getitemLoop_run_stop hreach hflen hdrop hzgt
        simp only [getitemLevels, hrun]
        apply ih (by omega)
        apply hnext
        exact lastD_mem x _

/-! ### Lookup: top-level characterizations -/

theorem getitem_absent {s : SkipList} {k : Int} (hInv : SLInv s)
    (hk : k ∉ keysAt s 0) : s.getitem k = some none := by
  apply getitemLevels_absent hInv _ s.level le_rfl 0 (Or.inl rfl)
  intro z hz hzk
  exact hk (by rw [← hzk]; exact List.mem_map_of_mem _ hz)

theorem getitem_found {s : SkipList} {k : Int} (hwf : SLWF s) {z : Nat}
    (hz : z ∈ chainL s 0) (hkz : keyAt s.nodes z = k) :
    s.getitem k = some (some (valueAt s.nodes z)) :=
  getitemLevels_found hwf hz hkz s.level le_rfl 0 (Or.inl rfl)

/-! ### Insert: per-level step -/

theorem lastD_append (x : Nat) (a b : List Nat) :
    lastD x (a ++ b) = lastD (lastD x a) b := by
  induction a generalizing x with
  | nil => rfl
  | cons y t ih => simp [lastD, ih]

theorem takeWhile_congr_mem {α : Type} (p q : α → Bool) :
    ∀ {l : List α}, (∀ z ∈ l, p z = q z) → l.takeWhile p = l.takeWhile q := by
  intro l
  induction l with
  | nil => intro _; rfl
  | cons a t ih =>
    intro hpq
    rw [List.takeWhile_cons, List.takeWhile_cons, hpq a (by simp)]
    by_cases hq : q a = true
    · rw [if_pos hq, if_pos hq, ih (fun z hz => hpq z (by simp [hz]))]
    · rw [if_neg hq, if_neg hq]

theorem dropWhile_congr_mem {α : Type} (p q : α → Bool) :
    ∀ {l : List α}, (∀ z ∈ l, p z = q z) → l.dropWhile p = l.dropWhile q := by
  intro l
  induction l with
  | nil => intro _; rfl
  | cons a t ih =>
    intro hpq
    rw [List.dropWhile_cons, List.dropWhile_cons, hpq a (by simp)]
    by_cases hq : q a = true
    · rw [if_pos hq, if_pos hq, ih (fun z hz => hpq z (by simp [hz]))]
    · rw [if_neg hq, if_neg hq]

/-- Heap-level version of `inv_pos_split`: split a chain around the current
traversal pointer. -/
theorem pos_split_heap {H : List SkipNode} {i : Nat} {c : List Nat} {k : Int}
    {κ : Nat → Int} (hreach : reaches H i 0 c)
    (hsorted : c.Pairwise (fun a b => κ a ≤ κ b)) {x : Nat}
    (hx : x = 0 ∨ (x ∈ c ∧ κ x < k)) :
    ∃ pre suf, c = pre ++ suf ∧ lastD 0 pre = x ∧ reaches H i x suf ∧
      (∀ z ∈ pre, κ z < k) ∧ (x :: suf).Sublist (0 :: c) := by
  rcases hx with rfl | ⟨hmem, hkx⟩
  · exact ⟨[], c, rfl, rfl, hreach, by simp, List.Sublist.refl _⟩
  · obtain ⟨a, b, hab⟩ := List.append_of_mem hmem
    refine ⟨a ++ [x], b, by rw [hab, List.append_assoc]; rfl, lastD_concat 0 a x, ?_, ?_, ?_⟩
    · have : reaches H i (lastD 0 (a ++ [x])) b := by
        apply reaches_split (a := a ++ [x])
        rw [show (a ++ [x]) ++ b = c from by rw [hab, List.append_assoc]; rfl]
        exact hreach
      rwa [lastD_concat 0 a x] at this
    · intro z hz
      rcases List.mem_append.mp hz with hz' | hz'
      · rw [hab] at hsorted
        have := (List.pairwise_append.mp hsorted).2.2 z hz' x (by simp)
        omega
      · rw [List.mem_singleton.mp hz']
        exact hkx
    · rw [hab]
      have : (0 :: (a ++ x :: b)) = (0 :: a) ++ (x :: b) := by simp
      rw [this]
      exact List.sublist_append_right _ _

theorem insertStep_run {s : SkipList} (hInv : SLInv s) (k v : Int) (i : Nat)
    (Hc : List SkipNode) (x : Nat)
    (hlen : Hc.length = s.nodes.length + 1)
    (hpair : ∀ z, pairAt Hc z = pairAt (s.nodes ++ [⟨⟨k, v⟩, []⟩]) z)
    (hcur : reaches Hc i 0 (chainL s i))
    (hx : x = 0 ∨ (x ∈ chainL s i ∧ keyAt s.nodes x < k)) :
    ∃ H2 x', insertStep Hc k s.nodes.length i (s.nodes.length + 2) x = some (H2, x') ∧
      H2.length = s.nodes.length + 1 ∧
      (∀ z, pairAt H2 z = pairAt Hc z) ∧
      (∀ z j, j ≠ i → succAt H2 z j = succAt Hc z j) ∧
      reaches H2 i 0
        ((chainL s i).takeWhile (fun z => decide (keyAt s.nodes z < k)) ++
          s.nodes.length :: (chainL s i).dropWhile (fun z => decide (keyAt s.nodes z < k))) ∧
      (x' = x ∨ (x' ∈ chainL s i ∧ keyAt s.nodes x' < k)) ∧
      (∀ jj, jj ∈ dkeys (nodeD H2 s.nodes.length).next ↔
        (jj = i ∨ jj ∈ dkeys (nodeD Hc s.nodes.length).next)) ∧
      (∀ z, z ≠ s.nodes.length → ∀ j, j ∈ dkeys (nodeD H2 z).next →
        j ∈ dkeys (nodeD Hc z).next ∨ j = i) := by
  have hn1 : 0 < s.nodes.length := hInv.1
  have hkey_old : ∀ z, z < s.nodes.length → keyAt Hc z = keyAt s.nodes z := by
    intro z hz
    show (pairAt Hc z).key = (pairAt s.nodes z).key
    rw [hpair z, pairAt_append_old s.nodes _ z hz]
  have hval : ∀ z ∈ chainL s i, z < s.nodes.length := fun z hz => inv_valid hInv hz
  obtain ⟨pre, suf, hchain, hlast, hreach, hpre, hsub⟩ :=
    pos_split_heap hcur (inv_sorted hInv i) hx
  have hsufsub : suf ⊆ chainL s i := by
    intro z hz
    rw [hchain]
    exact List.mem_append.mpr (Or.inr hz)
  have hflen : suf.length < s.nodes.length + 2 := by
    have h1 : suf.length ≤ (chainL s i).length := by rw [hchain]; simp
    have := inv_chain_len hInv i
    omega
  have hloop := insertLoop_run (k := k) hreach hflen
  have htakeC : suf.takeWhile (fun w => decide (keyAt Hc w < k)) =
      suf.takeWhile (fun w => decide (keyAt s.nodes w < k)) := by
    apply takeWhile_congr_mem
    intro z hz
    rw [hkey_old z (hval z (hsufsub hz))]
  rw [htakeC] at hloop
  -- names for the scanned part, the remainder, and the stop position
  have hsplit_tr : suf = suf.takeWhile (fun w => decide (keyAt s.nodes w < k)) ++
      suf.dropWhile (fun w => decide (keyAt s.nodes w < k)) :=
    (List.takeWhile_append_dropWhile _ _).symm
  have hreach_x' : reaches Hc i
      (lastD x (suf.takeWhile (fun w => decide (keyAt s.nodes w < k))))
      (suf.dropWhile (fun w => decide (keyAt s.nodes w < k))) := by
    apply reaches_split
    rw [← hsplit_tr]
    exact hreach
  have hxprop : (lastD x (suf.takeWhile (fun w => decide (keyAt s.nodes w < k)))) = x ∨
      ((lastD x (suf.takeWhile (fun w => decide (keyAt s.nodes w < k)))) ∈ chainL s i ∧
        keyAt s.nodes (lastD x (suf.takeWhile (fun w => decide (keyAt s.nodes w < k)))) < k) := by
    rcases lastD_mem x (suf.takeWhile (fun w => decide (keyAt s.nodes w < k))) with h | h
    · exact Or.inl h
    · exact Or.inr ⟨hsufsub ((List.takeWhile_sublist _).subset h),
        mem_takeWhile_lt (keyAt s.nodes) k h⟩
  have hxmem0 : (lastD x (suf.takeWhile (fun w => decide (keyAt s.nodes w < k)))) = 0 ∨
      (lastD x (suf.takeWhile (fun w => decide (keyAt s.nodes w < k)))) ∈ chainL s i := by
    rcases hxprop with h | h
    · rcases hx with rfl | ⟨hm, _⟩
      · exact Or.inl h
      · exact Or.inr (by rw [h]; exact hm)
    · exact Or.inr h.1
  have hxlt : (lastD x (suf.takeWhile (fun w => decide (keyAt s.nodes w < k)))) < Hc.length := by
    rcases hxmem0 with h | h
    · rw [h, hlen]; omega
    · have := hval _ h
      omega
  have hxnen : (lastD x (suf.takeWhile (fun w => decide (keyAt s.nodes w < k)))) ≠
      s.nodes.length := by
    rcases hxmem0 with h | h
    · rw [h]; omega
    · have := hval _ h
      omega
  set x' := lastD x (suf.takeWhile (fun w => decide (keyAt s.nodes w < k))) with hxdef
  set t := suf.takeWhile (fun w => decide (keyAt s.nodes w < k)) with htdef
  set r := suf.dropWhile (fun w => decide (keyAt s.nodes w < k)) with hrdef
  have hcx' : Hc[x']? = some (nodeD Hc x') := by
    simp [nodeD, List.getElem?_eq_getElem hxlt]
  set succ0 := dget (nodeD Hc x').next i with hsucc0
  have hsuccAt : succAt Hc x' i = some succ0 := by
    rw [succAt, hcx']
    rfl
  set Hmid := hset Hc s.nodes.length i succ0 with hHmid
  set H2 := hset Hmid x' i (some s.nodes.length) with hH2
  have hlen_mid : Hmid.length = Hc.length := length_hset _ _ _ _
  have hlen2 : H2.length = s.nodes.length + 1 := by
    rw [hH2, length_hset, hlen_mid, hlen]
  have hnlt : s.nodes.length < Hc.length := by omega
  -- run the step
  have hrun : insertStep Hc k s.nodes.length i (s.nodes.length + 2) x = some (H2, x') := by
    rw [insertStep, hloop]
  -- nodes in the remainder `r` are distinct from x' and from the new node
  have hnd_xsuf : (x :: suf).Nodup := hsub.nodup (inv_nodup hInv i)
  have hrne : ∀ z ∈ r, z ≠ x' ∧ z ≠ s.nodes.length := by
    intro z hz
    constructor
    · rcases lastD_mem x t with h | h
      · rw [hxdef, h]
        intro hzx
        subst hzx
        exact (List.nodup_cons.mp hnd_xsuf).1 ((List.dropWhile_sublist _).subset hz)
      · intro hzx
        have hnds : suf.Nodup := (List.nodup_cons.mp hnd_xsuf).2
        rw [hsplit_tr] at hnds
        have hdisj := List.disjoint_of_nodup_append hnds
        exact hdisj (hzx ▸ h) hz
    · have := hval z (hsufsub ((List.dropWhile_sublist _).subset hz))
      omega
  -- the chain from x' after the splice: new node, then the old remainder
  have hreach_n_r : reaches H2 i s.nodes.length r := by
    have hsn : succAt H2 s.nodes.length i = some succ0 := by
      rw [hH2, succAt_hset_ne _ _ _ _ _ _ (Ne.symm hxnen), hHmid,
        succAt_hset_self Hc s.nodes.length i succ0 hnlt]
    cases hr : r with
    | nil =>
      have : succAt Hc x' i = some none := by
        have hthis := hreach_x'
        rw [hr] at hthis
        exact chainF_nil_inv hthis
      have hs0 : succ0 = none := by
        rw [hsuccAt] at this
        injection this
      show chainF H2 i 1 s.nodes.length = some []
      exact chainF_succ_none 0 (by rw [hsn, hs0])
    | cons w r' =>
      have hrx := hreach_x'
      rw [hr] at hrx
      obtain ⟨hw1, hw2⟩ := chainF_cons_inv hrx
      have hs0 : succ0 = some w := by
        rw [hsuccAt] at hw1
        injection hw1
      have hw2' : reaches Hc i w r' := reaches_of_chainF (by simpa using hw2)
      have hw2'' : reaches H2 i w r' := by
        apply reaches_congr hw2'
        intro z hz
        have hzr : z ∈ r := by
          rw [hr]
          rcases hz with rfl | hz
          · simp
          · simp [hz]
        obtain ⟨hz1, hz2⟩ := hrne z hzr
        rw [hH2, succAt_hset_ne _ _ _ _ _ _ hz1, hHmid, succAt_hset_ne _ _ _ _ _ _ hz2]
      show chainF H2 i ((w :: r').length + 1) s.nodes.length = some (w :: r')
      rw [chainF_succ_some _ (by rw [hsn, hs0]), chainF_of_reaches hw2'' (by simp)]
      rfl
  have hreach_xnew : reaches H2 i x' (s.nodes.length :: r) := by
    have hsx' : succAt H2 x' i = some (some s.nodes.length) := by
      rw [hH2]
      exact succAt_hset_self Hmid x' i (some s.nodes.length) (by rw [hlen_mid]; exact hxlt)
    show chainF H2 i (r.length + 1 + 1) x' = some (s.nodes.length :: r)
    rw [chainF_succ_some _ hsx', chainF_of_reaches hreach_n_r (by omega)]
    rfl
  -- the full level-i chain after the splice
  have htake_eq : (chainL s i).takeWhile (fun z => decide (keyAt s.nodes z < k)) = pre ++ t := by
    rw [hchain, takeWhile_append_all _ (fun z hz => by simp [hpre z hz]), htdef]
  have hdrop_eq : (chainL s i).dropWhile (fun z => decide (keyAt s.nodes z < k)) = r := by
    rw [hchain, dropWhile_append_all _ (fun z hz => by simp [hpre z hz]), hrdef]
  have hreach2full : reaches H2 i 0
      ((chainL s i).takeWhile (fun z => decide (keyAt s.nodes z < k)) ++
        s.nodes.length :: (chainL s i).dropWhile (fun z => decide (keyAt s.nodes z < k))) := by
    rw [htake_eq, hdrop_eq]
    have hgraft : reaches H2 i 0 ((pre ++ t) ++ (s.nodes.length :: r)) := by
      apply reaches_graft (H := Hc) (b := r)
      · rw [List.append_assoc]
        rw [show t ++ r = suf from hsplit_tr.symm]
        rw [← hchain]
        exact hcur
      · have : (0 :: (pre ++ t)).Sublist (0 :: chainL s i) := by
          apply List.Sublist.cons₂
          rw [← htake_eq]
          exact List.takeWhile_sublist _
        exact this.nodup (inv_nodup hInv i)
      · intro w hw hwne
        have hwlast : lastD 0 (pre ++ t) = x' := by
          rw [lastD_append, hlast]
        rw [hwlast] at hwne
        have hwn : w ≠ s.nodes.length := by
          rcases hw with rfl | hw
          · omega
          · have hw' : w ∈ chainL s i := by
              rw [← htake_eq] at hw
              exact (List.takeWhile_sublist _).subset hw
            have := hval w hw'
            omega
        rw [hH2, succAt_hset_ne _ _ _ _ _ _ hwne, hHmid, succAt_hset_ne _ _ _ _ _ _ hwn]
      · rw [lastD_append, hlast]
        exact hreach_xnew
    exact hgraft
  -- dictionary keys of the new node
  have hnodeD_mid_n : nodeD Hmid s.nodes.length =
      { nodeD Hc s.nodes.length with next := dset (nodeD Hc s.nodes.length).next i succ0 } := by
    rw [hHmid, nodeD, getElem?_hset_self Hc s.nodes.length i succ0 hnlt]
    rfl
  have hnodeD_2_n : nodeD H2 s.nodes.length = nodeD Hmid s.nodes.length := by
    rw [hH2, nodeD, nodeD, getElem?_hset_ne _ _ _ _ _ (Ne.symm hxnen)]
  refine ⟨H2, x', hrun, hlen2, ?_, ?_, hreach2full, hxprop, ?_, ?_⟩
  · intro z
    rw [hH2, pairAt_hset, hHmid, pairAt_hset]
  · intro z j hj
    rw [hH2, succAt_hset_other_level _ _ _ _ _ _ hj, hHmid,
      succAt_hset_other_level _ _ _ _ _ _ hj]
  · intro jj
    rw [hnodeD_2_n, hnodeD_mid_n]
    exact mem_dkeys_dset _ _ _ _
  · intro z hz j hj
    rw [hH2] at hj
    rcases dkeys_nodeD_hset _ _ _ _ _ _ hj with h | h
    · rw [hHmid] at h
      rcases dkeys_nodeD_hset _ _ _ _ _ _ h with h' | h'
      · exact Or.inl h'
      · exact Or.inr h'
    · exact Or.inr h

/-! ### Insert: descent over levels -/

theorem insertLevels_run {s : SkipList} (hInv : SLInv s) (k v : Int) (h : Nat) :
    ∀ i, i ≤ h → ∀ (Hc : List SkipNode) (x : Nat),
      Hc.length = s.nodes.length + 1 →
      (∀ z, pairAt Hc z = pairAt (s.nodes ++ [⟨⟨k, v⟩, []⟩]) z) →
      (∀ j, j ≤ i → reaches Hc j 0 (chainL s j)) →
      (∀ j, i < j → j ≤ h → reaches Hc j 0
        ((chainL s j).takeWhile (fun z => decide (keyAt s.nodes z < k)) ++
          s.nodes.length :: (chainL s j).dropWhile (fun z => decide (keyAt s.nodes z < k)))) →
      (∀ j, h < j → reaches Hc j 0 (chainL s j)) →
      (x = 0 ∨ (x ∈ chainL s i ∧ keyAt s.nodes x < k)) →
      (∀ jj, jj ∈ dkeys (nodeD Hc s.nodes.length).next ↔ (i < jj ∧ jj ≤ h)) →
      (∀ z, z ≠ s.nodes.length → ∀ j, j ∈ dkeys (nodeD Hc z).next →
        j ∈ dkeys (nodeD s.nodes z).next ∨ (i < j ∧ j ≤ h)) →
      ∃ Hf, insertLevels k s.nodes.length (s.nodes.length + 2) i Hc x = some Hf ∧
        Hf.length = s.nodes.length + 1 ∧
        (∀ z, pairAt Hf z = pairAt (s.nodes ++ [⟨⟨k, v⟩, []⟩]) z) ∧
        (∀ j, j ≤ h → reaches Hf j 0
          ((chainL s j).takeWhile (fun z => decide (keyAt s.nodes z < k)) ++
            s.nodes.length :: (chainL s j).dropWhile (fun z => decide (keyAt s.nodes z < k)))) ∧
        (∀ j, h < j → reaches Hf j 0 (chainL s j)) ∧
        (∀ jj, jj ∈ dkeys (nodeD Hf s.nodes.length).next ↔ jj ≤ h) ∧
        (∀ z, z ≠ s.nodes.length → ∀ j, j ∈ dkeys (nodeD Hf z).next →
          j ∈ dkeys (nodeD s.nodes z).next ∨ j ≤ h) := by
  intro i
  induction i with
  | zero =>
    intro _ Hc x hlen hpair hbelow habove htop hx hdkn hdko
    obtain ⟨H2, x', hrun, hlen2, hpair2, hother, hreach0, hxprop, hdkn2, hdko2⟩ :=
      insertStep_run hInv k v 0 Hc x hlen hpair (hbelow 0 le_rfl) hx
    refine ⟨H2, ?_, hlen2, fun z => (hpair2 z).trans (hpair z), ?_, ?_, ?_, ?_⟩
    · simp only [insertLevels, hrun, Option.map_some']
    · intro j hj
      rcases Nat.eq_zero_or_pos j with rfl | hj0
      · exact hreach0
      · exact reaches_congr (habove j hj0 hj) (fun z _ => hother z j (by omega))
    · intro j hj
      exact reaches_congr (htop j hj) (fun z _ => hother z j (by omega))
    · intro jj
      rw [hdkn2 jj, hdkn jj]
      omega
    · intro z hz j hj
      rcases hdko2 z hz j hj with h' | h'
      · rcases hdko z hz j h' with h'' | h''
        · exact Or.inl h''
        · exact Or.inr (by omega)
      · exact Or.inr (by omega)
  | succ i ih =>
    intro hih Hc x hlen hpair hbelow habove htop hx hdkn hdko
    obtain ⟨H2, x', hrun, hlen2, hpair2, hother, hreachi, hxprop, hdkn2, hdko2⟩ :=
      insertStep_run hInv k v (i+1) Hc x hlen hpair (hbelow (i+1) le_rfl) hx
    have hbelow' : ∀ j, j ≤ i → reaches H2 j 0 (chainL s j) := by
      intro j hj
      exact reaches_congr (hbelow j (by omega)) (fun z _ => hother z j (by omega))
    have habove' : ∀ j, i < j → j ≤ h → reaches H2 j 0
        ((chainL s j).takeWhile (fun z => decide (keyAt s.nodes z < k)) ++
          s.nodes.length :: (chainL s j).dropWhile (fun z => decide (keyAt s.nodes z < k))) := by
      intro j hj1 hj2
      rcases Nat.eq_or_lt_of_le hj1 with heq | hlt
      · subst heq
        exact hreachi
      · exact reaches_congr (habove j hlt hj2) (fun z _ => hother z j (by omega))
    have htop' : ∀ j, h < j → reaches H2 j 0 (chainL s j) := by
      intro j hj
      exact reaches_congr (htop j hj) (fun z _ => hother z j (by omega))
    have hx' : x' = 0 ∨ (x' ∈ chainL s i ∧ keyAt s.nodes x' < k) := by
      rcases hxprop with rfl | ⟨hm, hk⟩
      · rcases hx with h | ⟨hm, hk⟩
        · exact Or.inl h
        · exact Or.inr ⟨(inv_subset hInv i).subset hm, hk⟩
      · exact Or.inr ⟨(inv_subset hInv i).subset hm, hk⟩
    have hdkn' : ∀ jj, jj ∈ dkeys (nodeD H2 s.nodes.length).next ↔ (i < jj ∧ jj ≤ h) := by
      intro jj
      rw [hdkn2 jj, hdkn jj]
      omega
    have hdko' : ∀ z, z ≠ s.nodes.length → ∀ j, j ∈ dkeys (nodeD H2 z).next →
        j ∈ dkeys (nodeD s.nodes z).next ∨ (i < j ∧ j ≤ h) := by
      intro z hz j hj
      rcases hdko2 z hz j hj with h' | h'
      · rcases hdko z hz j h' with h'' | h''
        · exact Or.inl h''
        · exact Or.inr (by omega)
      · exact Or.inr (by omega)
    obtain ⟨Hf, hfrun, hflen, hfpair, hfl, hfg, hfdkn, hfdko⟩ :=
      ih (by omega) H2 x' hlen2 (fun z => (hpair2 z).trans (hpair z))
        hbelow' habove' htop' hx' hdkn' hdko'
    refine ⟨Hf, ?_, hflen, hfpair, hfl, hfg, hfdkn, hfdko⟩
    simp only [insertLevels, hrun, hfrun]

/-! ### Insert: top-level characterization -/

theorem insert_run {s : SkipList} (hInv : SLInv s) (k v : Int) (h : Nat) :
    ∃ s', s.insert k v h = some s' ∧
      s'.nodes.length = s.nodes.length + 1 ∧
      s'.level = max s.level h ∧
      s'.size = s.size + 1 ∧
      (∀ z, pairAt s'.nodes z = pairAt (s.nodes ++ [⟨⟨k, v⟩, []⟩]) z) ∧
      (∀ j, j ≤ h → chainL s' j =
        (chainL s j).takeWhile (fun z => decide (keyAt s.nodes z < k)) ++
          s.nodes.length :: (chainL s j).dropWhile (fun z => decide (keyAt s.nodes z < k))) ∧
      (∀ j, h < j → chainL s' j = chainL s j) ∧
      (∀ j, (chainAt s' j).isSome = true) ∧
      (∀ jj, jj ∈ dkeys (nodeD s'.nodes s.nodes.length).next ↔ jj ≤ h) ∧
      (∀ z, z ≠ s.nodes.length → ∀ j, j ∈ dkeys (nodeD s'.nodes z).next →
        j ∈ dkeys (nodeD s.nodes z).next ∨ j ≤ h) := by
  have hn1 : 0 < s.nodes.length := hInv.1
  set H1 := s.nodes ++ [(⟨⟨k, v⟩, []⟩ : SkipNode)] with hH1
  have hlen1 : H1.length = s.nodes.length + 1 := by simp [hH1]
  have hreach1 : ∀ j, reaches H1 j 0 (chainL s j) := by
    intro j
    apply reaches_congr (inv_reaches hInv j)
    intro z hz
    apply succAt_append_old
    rcases hz with rfl | hz
    · exact hn1
    · exact inv_valid hInv hz
  have hnodeD1n : nodeD H1 s.nodes.length = ⟨⟨k, v⟩, []⟩ := by
    rw [nodeD, hH1, getElem?_append_new]
    rfl
  have hnodeD1o : ∀ z, z ≠ s.nodes.length → nodeD H1 z = nodeD s.nodes z := by
    intro z hz
    by_cases hlt : z < s.nodes.length
    · rw [nodeD, nodeD, hH1, getElem?_append_old _ _ _ hlt]
    · have h1 : H1[z]? = none := by
        apply List.getElem?_eq_none
        rw [hlen1]
        omega
      have h2 : s.nodes[z]? = none := by
        apply List.getElem?_eq_none
        omega
      rw [nodeD, nodeD, h1, h2]
  obtain ⟨Hf, hfrun, hflen, hfpair, hfl, hfg, hfdkn, hfdko⟩ :=
    insertLevels_run hInv k v h h le_rfl H1 0 hlen1 (fun z => rfl)
      (fun j _ => hreach1 j) (fun j hj1 hj2 => absurd hj1 (by omega))
      (fun j _ => hreach1 j) (Or.inl rfl)
      (by intro jj; rw [hnodeD1n]; simp [dkeys])
      (by
        intro z hz j hj
        rw [hnodeD1o z hz] at hj
        exact Or.inl hj)
  have hfuel1 : ∀ j, ((chainL s j).takeWhile (fun z => decide (keyAt s.nodes z < k)) ++
      s.nodes.length :: (chainL s j).dropWhile (fun z => decide (keyAt s.nodes z < k))).length + 1 ≤
      Hf.length + 1 := by
    intro j
    have h1 : ((chainL s j).takeWhile (fun z => decide (keyAt s.nodes z < k))).length +
        ((chainL s j).dropWhile (fun z => decide (keyAt s.nodes z < k))).length =
        (chainL s j).length := by
      rw [← List.length_append, List.takeWhile_append_dropWhile]
    have h2 := inv_chain_len hInv j
    rw [hflen]
    simp only [List.length_append, List.length_cons]
    omega
  have hfuel2 : ∀ j, (chainL s j).length + 1 ≤ Hf.length + 1 := by
    intro j
    have h2 := inv_chain_len hInv j
    rw [hflen]
    omega
  refine ⟨⟨Hf, if h > s.level then h else s.level, s.size + 1⟩, ?_, hflen, ?_, rfl, hfpair,
    ?_, ?_, ?_, hfdkn, hfdko⟩
  · rw [SkipList.insert]
    simp only [hfrun, Option.map_some']
  · by_cases hc : h > s.level
    · simp only [hc, if_true]
      exact (Nat.max_eq_right (le_of_lt hc)).symm
    · simp only [hc, if_false]
      exact (Nat.max_eq_left (Nat.not_lt.mp hc)).symm
  · intro j hj
    show (chainAt _ j).getD [] = _
    rw [show chainAt ⟨Hf, if h > s.level then h else s.level, s.size + 1⟩ j =
        chainF Hf j (Hf.length + 1) 0 from rfl]
    rw [chainF_of_reaches (hfl j hj) (hfuel1 j)]
    rfl
  · intro j hj
    show (chainAt _ j).getD [] = _
    rw [show chainAt ⟨Hf, if h > s.level then h else s.level, s.size + 1⟩ j =
        chainF Hf j (Hf.length + 1) 0 from rfl]
    rw [chainF_of_reaches (hfg j hj) (hfuel2 j)]
    rfl
  · intro j
    rw [show chainAt ⟨Hf, if h > s.level then h else s.level, s.size + 1⟩ j =
        chainF Hf j (Hf.length + 1) 0 from rfl]
    by_cases hj : j ≤ h
    · rw [chainF_of_reaches (hfl j hj) (hfuel1 j)]
      rfl
    · rw [chainF_of_reaches (hfg j (by omega)) (hfuel2 j)]
      rfl

/-! ### Delete: per-level step -/

theorem deleteStep_run {s : SkipList} (hInv : SLInv s) (k : Int) (i : Nat)
    (Hc : List SkipNode) (x : Nat) (del : Bool)
    (hlen : Hc.length = s.nodes.length)
    (hpair : ∀ z, pairAt Hc z = pairAt s.nodes z)
    (hcur : reaches Hc i 0 (chainL s i))
    (hx : x = 0 ∨ (x ∈ chainL s i ∧ keyAt s.nodes x < k)) :
    ∃ H' x' del'', deleteLoop k i (s.nodes.length + 1) Hc x del = some (H', x', del'') ∧
      H'.length = s.nodes.length ∧
      (∀ z, pairAt H' z = pairAt s.nodes z) ∧
      (∀ z j, j ≠ i → succAt H' z j = succAt Hc z j) ∧
      reaches H' i 0 ((chainL s i).filter (fun z => !(keyAt s.nodes z == k))) ∧
      (x' = x ∨ (x' ∈ chainL s i ∧ keyAt s.nodes x' < k)) ∧
      del'' = (del || (chainL s i).any (fun z => keyAt s.nodes z == k)) ∧
      (∀ z j, j ∈ dkeys (nodeD H' z).next → j ∈ dkeys (nodeD Hc z).next ∨ j = i) ∧
      ((chainL s i).any (fun z => keyAt s.nodes z == k) = false → H' = Hc) := by
  have hn1 : 0 < s.nodes.length := hInv.1
  have hkf : keyAt Hc = keyAt s.nodes := funext (fun z => congrArg Pair.key (hpair z))
  have hval : ∀ z ∈ chainL s i, z < s.nodes.length := fun z hz => inv_valid hInv hz
  obtain ⟨pre, suf, hchain, hlast, hreach, hpre, hsub⟩ :=
    pos_split_heap hcur (inv_sorted hInv i) hx
  have hxlt : x < Hc.length := by
    rcases hx with rfl | ⟨hm, _⟩
    · omega
    · have := hval x hm
      omega
  have hnd_xsuf : (x :: suf).Nodup := hsub.nodup (inv_nodup hInv i)
  have hsorted_suf : suf.Pairwise (fun a b => keyAt Hc a ≤ keyAt Hc b) := by
    rw [hkf]
    have := inv_sorted hInv i
    rw [hchain] at this
    exact (List.pairwise_append.mp this).2.1
  have hflen : suf.length < s.nodes.length + 1 := by
    have h1 : suf.length ≤ (chainL s i).length := by rw [hchain]; simp
    have := inv_chain_len hInv i
    omega
  obtain ⟨H', hrun, hlen', hpair', hother, hout, hdk, hreach', hnosp⟩ :=
    deleteLoop_run (k := k) (i := i) hreach hxlt hnd_xsuf hsorted_suf hflen
  rw [hkf] at hrun hreach'
  have hpre_mem : ∀ z ∈ pre, z ∈ chainL s i := by
    intro z hz
    rw [hchain]
    exact List.mem_append.mpr (Or.inl hz)
  have hsuf_mem : ∀ z ∈ suf, z ∈ chainL s i := by
    intro z hz
    rw [hchain]
    exact List.mem_append.mpr (Or.inr hz)
  have hpre_any : pre.any (fun z => keyAt s.nodes z == k) = false := by
    apply List.any_eq_false.mpr
    intro z hz
    have := hpre z hz
    simp
    omega
  have hciany : (chainL s i).any (fun z => keyAt s.nodes z == k) =
      suf.any (fun z => keyAt s.nodes z == k) := by
    rw [hchain, List.any_append, hpre_any, Bool.false_or]
  refine ⟨H', lastD x (suf.takeWhile (fun w => decide (keyAt s.nodes w < k))),
    del || suf.any (fun w => keyAt s.nodes w == k), hrun, hlen'.trans hlen, ?_, hother, ?_,
    ?_, ?_, ?_, ?_⟩
  · intro z
    rw [hpair' z, hpair z]
  · -- graft the untouched scanned part onto the filtered remainder
    have hgraft : reaches H' i 0 (pre ++ suf.filter (fun w => !(keyAt s.nodes w == k))) := by
      apply reaches_graft (H := Hc) (b := suf)
      · rw [← hchain]
        exact hcur
      · have : (0 :: pre).Sublist (0 :: chainL s i) := by
          apply List.Sublist.cons₂
          rw [hchain]
          exact List.sublist_append_left _ _
        exact this.nodup (inv_nodup hInv i)
      · intro w hw hwne
        rw [hlast] at hwne
        apply hout
        intro hmem
        rcases List.mem_cons.mp hmem with rfl | hmem'
        · exact hwne rfl
        · rcases hw with rfl | hw'
          · exact (List.nodup_cons.mp (inv_nodup hInv i)).1 (hsuf_mem 0 hmem')
          · have hndci : (chainL s i).Nodup := (List.nodup_cons.mp (inv_nodup hInv i)).2
            rw [hchain] at hndci
            exact (List.disjoint_of_nodup_append hndci) hw' hmem'
      · rw [hlast]
        exact hreach'
    have heq : pre ++ suf.filter (fun w => !(keyAt s.nodes w == k)) =
        (chainL s i).filter (fun z => !(keyAt s.nodes z == k)) := by
      rw [hchain, List.filter_append]
      congr 1
      symm
      apply List.filter_eq_self.mpr
      intro z hz
      have := hpre z hz
      simp
      omega
    rw [← heq]
    exact hgraft
  · rcases lastD_mem x (suf.takeWhile (fun w => decide (keyAt s.nodes w < k))) with h | h
    · exact Or.inl h
    · exact Or.inr ⟨hsuf_mem _ ((List.takeWhile_sublist _).subset h),
        mem_takeWhile_lt (keyAt s.nodes) k h⟩
  · rw [hciany]
  · exact hdk
  · intro h
    apply hnosp
    rw [hkf, ← hciany]
    exact h

/-! ### Delete: descent over levels -/

theorem deleteLevels_run {s : SkipList} (hInv : SLInv s) (k : Int) :
    ∀ i, ∀ (Hc : List SkipNode) (x : Nat) (del : Bool),
      Hc.length = s.nodes.length →
      (∀ z, pairAt Hc z = pairAt s.nodes z) →
      (∀ j, j ≤ i → reaches Hc j 0 (chainL s j)) →
      (∀ j, i < j → j ≤ s.level → reaches Hc j 0
        ((chainL s j).filter (fun z => !(keyAt s.nodes z == k)))) →
      (∀ z j, s.level < j → succAt Hc z j = succAt s.nodes z j) →
      (x = 0 ∨ (x ∈ chainL s i ∧ keyAt s.nodes x < k)) →
      del = (chainL s (i+1)).any (fun z => keyAt s.nodes z == k) →
      (∀ z j, j ∈ dkeys (nodeD Hc z).next → j ∈ dkeys (nodeD s.nodes z).next ∨ j ≤ s.level) →
      ((chainL s 0).any (fun z => keyAt s.nodes z == k) = false → Hc = s.nodes) →
      i ≤ s.level →
      ∃ Hf delf, deleteLevels k (s.nodes.length + 1) i Hc x del = some (Hf, delf) ∧
        Hf.length = s.nodes.length ∧
        (∀ z, pairAt Hf z = pairAt s.nodes z) ∧
        (∀ j, j ≤ s.level → reaches Hf j 0
          ((chainL s j).filter (fun z => !(keyAt s.nodes z == k)))) ∧
        (∀ z j, s.level < j → succAt Hf z j = succAt s.nodes z j) ∧
        delf = (chainL s 0).any (fun z => keyAt s.nodes z == k) ∧
        (∀ z j, j ∈ dkeys (nodeD Hf z).next → j ∈ dkeys (nodeD s.nodes z).next ∨ j ≤ s.level) ∧
        ((chainL s 0).any (fun z => keyAt s.nodes z == k) = false → Hf = s.nodes) := by
  intro i
  induction i with
  | zero =>
    intro Hc x del hlen hpair hbelow habove htop hx hdel hdk hnop _
    obtain ⟨H', x', del'', hrun, hlen', hpair', hother, hreach0, hxprop, hdel'', hdk', hnosp⟩ :=
      deleteStep_run hInv k 0 Hc x del hlen hpair (hbelow 0 le_rfl) hx
    have hany01 : (chainL s 1).any (fun z => keyAt s.nodes z == k) = true →
        (chainL s 0).any (fun z => keyAt s.nodes z == k) = true := by
      intro hh
      obtain ⟨z, hz, hzk⟩ := List.any_eq_true.mp hh
      exact List.any_eq_true.mpr ⟨z, (inv_subset hInv 0).subset hz, hzk⟩
    have hdelf : del'' = (chainL s 0).any (fun z => keyAt s.nodes z == k) := by
      rw [hdel'', hdel]
      cases hc : (chainL s 1).any (fun z => keyAt s.nodes z == k) with
      | false => rw [Bool.false_or]
      | true => rw [hany01 hc, Bool.true_or]
    refine ⟨H', del'', ?_, hlen', hpair', ?_, ?_, hdelf, ?_, ?_⟩
    · simp only [deleteLevels, hrun, Option.map_some']
    · intro j hj
      rcases Nat.eq_zero_or_pos j with rfl | hj0
      · exact hreach0
      · exact reaches_congr (habove j hj0 hj) (fun z _ => hother z j (by omega))
    · intro z j hj
      rw [hother z j (by omega)]
      exact htop z j hj
    · intro z j hj
      rcases hdk' z j hj with h' | h'
      · exact hdk z j h'
      · exact Or.inr (by omega)
    · intro h
      have h1 : (chainL s 0).any (fun z => keyAt s.nodes z == k) = false := h
      have h2 : (chainL s 0).any (fun z => keyAt s.nodes z == k) = false → H' = Hc := by
        intro hh
        apply hnosp
        cases hc : (chainL s 0).any (fun z => keyAt s.nodes z == k) with
        | false => rfl
        | true => rw [hc] at hh; cases hh
      rw [h2 h1, hnop h1]
  | succ i ih =>
    intro Hc x del hlen hpair hbelow habove htop hx hdel hdk hnop hil
    obtain ⟨H', x', del'', hrun, hlen', hpair', hother, hreachi, hxprop, hdel'', hdk', hnosp⟩ :=
      deleteStep_run hInv k (i+1) Hc x del hlen hpair (hbelow (i+1) le_rfl) hx
    have hanysub : ∀ j, (chainL s (j+1)).any (fun z => keyAt s.nodes z == k) = true →
        (chainL s j).any (fun z => keyAt s.nodes z == k) = true := by
      intro j hh
      obtain ⟨z, hz, hzk⟩ := List.any_eq_true.mp hh
      exact List.any_eq_true.mpr ⟨z, (inv_subset hInv j).subset hz, hzk⟩
    have hdelf : del'' = (chainL s (i+1)).any (fun z => keyAt s.nodes z == k) := by
      rw [hdel'', hdel]
      cases hc : (chainL s (i+2)).any (fun z => keyAt s.nodes z == k) with
      | false => rw [Bool.false_or]
      | true => rw [hanysub (i+1) hc, Bool.true_or]
    have hbelow' : ∀ j, j ≤ i → reaches H' j 0 (chainL s j) := by
      intro j hj
      exact reaches_congr (hbelow j (by omega)) (fun z _ => hother z j (by omega))
    have habove' : ∀ j, i < j → j ≤ s.level → reaches H' j 0
        ((chainL s j).filter (fun z => !(keyAt s.nodes z == k))) := by
      intro j hj1 hj2
      rcases Nat.eq_or_lt_of_le hj1 with heq | hlt
      · subst heq
        exact hreachi
      · exact reaches_congr (habove j hlt hj2) (fun z _ => hother z j (by omega))
    have htop' : ∀ z j, s.level < j → succAt H' z j = succAt s.nodes z j := by
      intro z j hj
      rw [hother z j (by omega)]
      exact htop z j hj
    have hx' : x' = 0 ∨ (x' ∈ chainL s i ∧ keyAt s.nodes x' < k) := by
      rcases hxprop with rfl | ⟨hm, hk⟩
      · rcases hx with h | ⟨hm, hk⟩
        · exact Or.inl h
        · exact Or.inr ⟨(inv_subset hInv i).subset hm, hk⟩
      · exact Or.inr ⟨(inv_subset hInv i).subset hm, hk⟩
    have hdk'' : ∀ z j, j ∈ dkeys (nodeD H' z).next →
        j ∈ dkeys (nodeD s.nodes z).next ∨ j ≤ s.level := by
      intro z j hj
      rcases hdk' z j hj with h' | h'
      · exact hdk z j h'
      · exact Or.inr (by omega)
    have hnop' : (chainL s 0).any (fun z => keyAt s.nodes z == k) = false → H' = s.nodes := by
      intro h
      have hanyi : (chainL s (i+1)).any (fun z => keyAt s.nodes z == k) = false := by
        cases hc : (chainL s (i+1)).any (fun z => keyAt s.nodes z == k) with
        | false => rfl
        | true =>
          exfalso
          have : ∀ j, (chainL s j).any (fun z => keyAt s.nodes z == k) = true →
              (chainL s 0).any (fun z => keyAt s.nodes z == k) = true := by
            intro j
            induction j with
            | zero => exact fun hh => hh
            | succ j ihj => exact fun hh => ihj (hanysub j hh)
          rw [this (i+1) hc] at h
          cases h
      rw [hnosp hanyi, hnop h]
    obtain ⟨Hf, delf, hfrun, hflen, hfpair, hfl, hftop, hfdel, hfdk, hfnop⟩ :=
      ih H' x' del'' hlen' hpair' hbelow' habove' htop' hx' hdelf hdk'' hnop' (by omega)
    refine ⟨Hf, delf, ?_, hflen, hfpair, hfl, hftop, hfdel, hfdk, hfnop⟩
    simp only [deleteLevels, hrun, hfrun]

/-! ### Delete: top-level characterization -/

theorem delete_run {s : SkipList} (hInv : SLInv s) (k : Int) :
    ∃ s', s.delete k = some s' ∧
      s'.nodes.length = s.nodes.length ∧
      s'.level = s.level ∧
      s'.size = (if k ∈ keysAt s 0 then s.size - 1 else s.size) ∧
      (∀ z, pairAt s'.nodes z = pairAt s.nodes z) ∧
      (∀ j, chainL s' j = (chainL s j).filter (fun z => !(keyAt s.nodes z == k))) ∧
      (∀ j, (chainAt s' j).isSome = true) ∧
      (∀ z j, j ∈ dkeys (nodeD s'.nodes z).next →
        j ∈ dkeys (nodeD s.nodes z).next ∨ j ≤ s.level) ∧
      (k ∉ keysAt s 0 → s' = s) := by
  obtain ⟨Hf, delf, hfrun, hflen, hfpair, hfl, hftop, hfdel, hfdk, hfnop⟩ :=
    deleteLevels_run hInv k s.level s.nodes 0 false rfl (fun z => rfl)
      (fun j _ => inv_reaches hInv j)
      (fun j hj1 hj2 => absurd hj1 (by omega))
      (fun z j _ => rfl)
      (Or.inl rfl)
      (by rw [inv_chain_above_nil hInv (by omega)]; rfl)
      (fun z j hj => Or.inl hj)
      (fun _ => rfl)
      le_rfl
  have hmem_any : k ∈ keysAt s 0 ↔
      (chainL s 0).any (fun z => keyAt s.nodes z == k) = true := by
    rw [keysAt, List.mem_map, List.any_eq_true]
    constructor
    · rintro ⟨z, hz, hzk⟩
      exact ⟨z, hz, by simp [hzk]⟩
    · rintro ⟨z, hz, hzk⟩
      exact ⟨z, hz, by simpa using hzk⟩
  have hchainsAt : ∀ j, chainF Hf j (Hf.length + 1) 0 =
      some ((chainL s j).filter (fun z => !(keyAt s.nodes z == k))) := by
    intro j
    by_cases hj : j ≤ s.level
    · apply chainF_of_reaches (hfl j hj)
      have h1 := List.length_filter_le (fun z => !(keyAt s.nodes z == k)) (chainL s j)
      have h2 := inv_chain_len hInv j
      rw [hflen]
      omega
    · have hnil : chainL s j = [] := inv_chain_above_nil hInv (by omega)
      have : reaches Hf j 0 [] := by
        have h0 := inv_reaches hInv j
        rw [hnil] at h0
        exact reaches_congr h0 (fun z _ => hftop z j (by omega))
      rw [chainF_of_reaches this (by rw [hflen]; exact Nat.succ_le_succ (Nat.zero_le _)), hnil]
      rfl
  have hchains : ∀ (lvl : Nat) (sz : Int), ∀ j,
      chainL ⟨Hf, lvl, sz⟩ j = (chainL s j).filter (fun z => !(keyAt s.nodes z == k)) := by
    intro lvl sz j
    show (chainAt _ j).getD [] = _
    rw [show chainAt ⟨Hf, lvl, sz⟩ j = chainF Hf j (Hf.length + 1) 0 from rfl, hchainsAt j]
    rfl
  have hsome : ∀ (lvl : Nat) (sz : Int), ∀ j,
      (chainAt (⟨Hf, lvl, sz⟩ : SkipList) j).isSome = true := by
    intro lvl sz j
    rw [show chainAt ⟨Hf, lvl, sz⟩ j = chainF Hf j (Hf.length + 1) 0 from rfl, hchainsAt j]
    rfl
  by_cases hk : k ∈ keysAt s 0
  · have hdelf : delf = true := by
      rw [hfdel]
      exact hmem_any.mp hk
    refine ⟨⟨Hf, s.level, s.size - 1⟩, ?_, hflen, rfl, ?_, hfpair, hchains s.level (s.size - 1),
      hsome s.level (s.size - 1), hfdk, fun habs => absurd hk habs⟩
    · rw [SkipList.delete]
      simp [hfrun, hdelf]
    · rw [if_pos hk]
  · have hdelf : delf = false := by
      rw [hfdel]
      cases hc : (chainL s 0).any (fun z => keyAt s.nodes z == k) with
      | false => rfl
      | true => exact absurd (hmem_any.mpr hc) hk
    have hHf : Hf = s.nodes := by
      apply hfnop
      cases hc : (chainL s 0).any (fun z => keyAt s.nodes z == k) with
      | false => rfl
      | true => exact absurd (hmem_any.mpr hc) hk
    have hs' : (⟨Hf, s.level, s.size⟩ : SkipList) = s := by
      rw [hHf]
    refine ⟨⟨Hf, s.level, s.size⟩, ?_, hflen, rfl, ?_, hfpair, hchains s.level s.size,
      hsome s.level s.size, hfdk, fun _ => hs'⟩
    · rw [SkipList.delete]
      simp [hfrun, hdelf]
    · rw [if_neg hk]

/-! ### Invariant preservation -/

theorem pairwise_congr_mem {α : Type} {R S : α → α → Prop} :
    ∀ {l : List α}, (∀ a ∈ l, ∀ b ∈ l, R a b → S a b) → l.Pairwise R → l.Pairwise S := by
  intro l
  induction l with
  | nil => intro _ _; exact List.Pairwise.nil
  | cons a t ih =>
    intro hrs hp
    obtain ⟨ha, ht⟩ := List.pairwise_cons.mp hp
    apply List.pairwise_cons.mpr
    refine ⟨fun b hb => hrs a (by simp) b (by simp [hb]) (ha b hb), ?_⟩
    exact ih (fun x hx y hy => hrs x (by simp [hx]) y (by simp [hy])) ht

theorem mem_splice {s : SkipList} {k : Int} {j z n : Nat}
    (hz : z ∈ (chainL s j).takeWhile (fun w => decide (keyAt s.nodes w < k)) ++
      n :: (chainL s j).dropWhile (fun w => decide (keyAt s.nodes w < k))) :
    z = n ∨ z ∈ chainL s j := by
  rcases List.mem_append.mp hz with h | h
  · exact Or.inr ((List.takeWhile_sublist _).subset h)
  · rcases List.mem_cons.mp h with rfl | h'
    · exact Or.inl rfl
    · exact Or.inr ((List.dropWhile_sublist _).subset h')

theorem insert_pres_inv {s : SkipList} (hInv : SLInv s) (k v : Int) (h : Nat)
    {s' : SkipList} (hrun : s.insert k v h = some s') : SLInv s' := by
  obtain ⟨s'', hrun'', hlen, hlvl, hsz, hpair, hle, hgt, hsome, hdkn, hdko⟩ :=
    insert_run hInv k v h
  rw [hrun''] at hrun
  injection hrun with hrun
  subst hrun
  have hn1 : 0 < s.nodes.length := hInv.1
  have hkey_old : ∀ z, z < s.nodes.length → keyAt s''.nodes z = keyAt s.nodes z := by
    intro z hz
    show (pairAt s''.nodes z).key = (pairAt s.nodes z).key
    rw [hpair z, pairAt_append_old s.nodes _ z hz]
  have hkey_new : keyAt s''.nodes s.nodes.length = k := by
    show (pairAt s''.nodes s.nodes.length).key = k
    rw [hpair _, pairAt, nodeD, getElem?_append_new]
    rfl
  have hvalc : ∀ j, ∀ z ∈ chainL s j, z < s.nodes.length := fun j z hz => inv_valid hInv hz
  have hchain_eq : ∀ j, j ≤ h → chainL s'' j =
      (chainL s j).takeWhile (fun z => decide (keyAt s.nodes z < k)) ++
        s.nodes.length :: (chainL s j).dropWhile (fun z => decide (keyAt s.nodes z < k)) := hle
  refine ⟨by rw [hlen]; omega, fun i _ => hsome i, ?_, ?_, ?_, ?_, ?_⟩
  · -- head dictionary keys bounded by the new level
    intro j hj
    have h0n : (0 : Nat) ≠ s.nodes.length := by omega
    rcases hdko 0 h0n j hj with h' | h'
    · have := inv_hts hInv 0 (Or.inl rfl) j h'
      rw [hlvl]
      omega
    · rw [hlvl]
      omega
  · -- reachable node dictionary keys bounded by the new level
    intro x hx j hj
    rcases mem_splice (hchain_eq 0 (Nat.zero_le h) ▸ hx) with rfl | hx'
    · have hjh := (hdkn j).mp hj
      rw [hlvl]
      omega
    · have hxn : x ≠ s.nodes.length := by
        have := hvalc 0 x hx'
        omega
      rcases hdko x hxn j hj with h' | h'
      · have := inv_hts hInv x (Or.inr hx') j h'
        rw [hlvl]
        omega
      · rw [hlvl]
        omega
  · -- chains visit no node twice
    intro i _
    by_cases hih : i ≤ h
    · rw [hchain_eq i hih]
      have hperm : ((chainL s i).takeWhile (fun z => decide (keyAt s.nodes z < k)) ++
          s.nodes.length :: (chainL s i).dropWhile (fun z => decide (keyAt s.nodes z < k))).Perm
          (s.nodes.length :: chainL s i) := by
        have h1 : ((chainL s i).takeWhile (fun z => decide (keyAt s.nodes z < k)) ++
            s.nodes.length :: (chainL s i).dropWhile (fun z => decide (keyAt s.nodes z < k))).Perm
            (s.nodes.length :: ((chainL s i).takeWhile (fun z => decide (keyAt s.nodes z < k)) ++
              (chainL s i).dropWhile (fun z => decide (keyAt s.nodes z < k)))) :=
          List.perm_middle
        rw [List.takeWhile_append_dropWhile] at h1
        exact h1
      have hperm0 : ((0 : Nat) :: ((chainL s i).takeWhile (fun z => decide (keyAt s.nodes z < k)) ++
          s.nodes.length :: (chainL s i).dropWhile (fun z => decide (keyAt s.nodes z < k)))).Perm
          (0 :: s.nodes.length :: chainL s i) := hperm.cons 0
      apply hperm0.symm.nodup
      apply List.nodup_cons.mpr
      refine ⟨?_, ?_⟩
      · intro hmem
        rcases List.mem_cons.mp hmem with h' | h'
        · omega
        · exact (List.nodup_cons.mp (inv_nodup hInv i)).1 h'
      · apply List.nodup_cons.mpr
        refine ⟨fun hmem => by have := hvalc i _ hmem; omega,
          (List.nodup_cons.mp (inv_nodup hInv i)).2⟩
    · rw [hgt i (by omega)]
      exact inv_nodup hInv i
  · -- keys non-decreasing along every chain
    intro i _
    by_cases hih : i ≤ h
    · rw [hchain_eq i hih]
      have htcongr : (chainL s i).takeWhile (fun z => decide (keyAt s.nodes z < k)) =
          (chainL s i).takeWhile (fun z => decide (keyAt s''.nodes z < k)) := by
        apply takeWhile_congr_mem
        intro z hz
        rw [hkey_old z (hvalc i z hz)]
      have hdcongr : (chainL s i).dropWhile (fun z => decide (keyAt s.nodes z < k)) =
          (chainL s i).dropWhile (fun z => decide (keyAt s''.nodes z < k)) := by
        apply dropWhile_congr_mem
        intro z hz
        rw [hkey_old z (hvalc i z hz)]
      rw [htcongr, hdcongr]
      apply pairwise_insert_mid (keyAt s''.nodes) k _ hkey_new
      apply pairwise_congr_mem _ (inv_sorted hInv i)
      intro a ha b hb hab
      rw [hkey_old a (hvalc i a ha), hkey_old b (hvalc i b hb)]
      exact hab
    · rw [hgt i (by omega)]
      apply pairwise_congr_mem _ (inv_sorted hInv i)
      intro a ha b hb hab
      rw [hkey_old a (hvalc i a ha), hkey_old b (hvalc i b hb)]
      exact hab
  · -- each level's chain is a sublist of the one below
    intro i _
    by_cases hih1 : i + 1 ≤ h
    · rw [hchain_eq (i+1) hih1, hchain_eq i (by omega)]
      rw [takeWhile_eq_filter_sorted (keyAt s.nodes) k (inv_sorted hInv (i+1)),
          takeWhile_eq_filter_sorted (keyAt s.nodes) k (inv_sorted hInv i),
          dropWhile_eq_filter_sorted (keyAt s.nodes) k (inv_sorted hInv (i+1)),
          dropWhile_eq_filter_sorted (keyAt s.nodes) k (inv_sorted hInv i)]
      exact List.Sublist.append ((inv_subset hInv i).filter _)
        (List.Sublist.cons₂ _ ((inv_subset hInv i).filter _))
    · by_cases hih2 : i ≤ h
      · have hieq : i = h := by omega
        subst hieq
        rw [hgt (i+1) (by omega), hchain_eq i le_rfl]
        apply (inv_subset hInv i).trans
        have hsplit : chainL s i =
            (chainL s i).takeWhile (fun z => decide (keyAt s.nodes z < k)) ++
              (chainL s i).dropWhile (fun z => decide (keyAt s.nodes z < k)) :=
          (List.takeWhile_append_dropWhile _ _).symm
        conv_lhs => rw [hsplit]
        exact List.Sublist.append_left (List.sublist_cons_self _ _) _
      · rw [hgt (i+1) (by omega), hgt i (by omega)]
        exact inv_subset hInv i

theorem insert_pres_wf {s : SkipList} (hwf : SLWF s) {k : Int} (hk : k ∉ keysAt s 0)
    (v : Int) (h : Nat) {s' : SkipList} (hrun : s.insert k v h = some s') : SLWF s' := by
  have hInv := hwf.1
  have hInv' := insert_pres_inv hInv k v h hrun
  obtain ⟨s'', hrun'', hlen, hlvl, hsz, hpair, hle, hgt, hsome, hdkn, hdko⟩ :=
    insert_run hInv k v h
  rw [hrun''] at hrun
  injection hrun with hrun
  subst hrun
  have hn1 : 0 < s.nodes.length := hInv.1
  have hkey_old : ∀ z, z < s.nodes.length → keyAt s''.nodes z = keyAt s.nodes z := by
    intro z hz
    show (pairAt s''.nodes z).key = (pairAt s.nodes z).key
    rw [hpair z, pairAt_append_old s.nodes _ z hz]
  have hkey_new : keyAt s''.nodes s.nodes.length = k := by
    show (pairAt s''.nodes s.nodes.length).key = k
    rw [hpair _, pairAt, nodeD, getElem?_append_new]
    rfl
  have hvalc : ∀ j, ∀ z ∈ chainL s j, z < s.nodes.length := fun j z hz => inv_valid hInv hz
  have habs : ∀ j, ∀ z ∈ chainL s j, keyAt s.nodes z ≠ k := by
    intro j z hz hzk
    apply hk
    rw [keysAt, List.mem_map]
    exact ⟨z, (inv_chain_sub0 hInv j).subset hz, hzk⟩
  refine ⟨hInv', ?_, ?_⟩
  · -- keys strictly increasing along every chain
    intro i _
    by_cases hih : i ≤ h
    · rw [hle i hih]
      have htcongr : (chainL s i).takeWhile (fun z => decide (keyAt s.nodes z < k)) =
          (chainL s i).takeWhile (fun z => decide (keyAt s''.nodes z < k)) := by
        apply takeWhile_congr_mem
        intro z hz
        rw [hkey_old z (hvalc i z hz)]
      have hdcongr : (chainL s i).dropWhile (fun z => decide (keyAt s.nodes z < k)) =
          (chainL s i).dropWhile (fun z => decide (keyAt s''.nodes z < k)) := by
        apply dropWhile_congr_mem
        intro z hz
        rw [hkey_old z (hvalc i z hz)]
      rw [htcongr, hdcongr]
      apply pairwise_insert_mid_strict (keyAt s''.nodes) k _ _ hkey_new
      · intro z hz
        rw [hkey_old z (hvalc i z hz)]
        exact habs i z hz
      · apply pairwise_congr_mem _ (inv_sorted hInv i)
        intro a ha b hb hab
        rw [hkey_old a (hvalc i a ha), hkey_old b (hvalc i b hb)]
        exact hab
      · apply pairwise_congr_mem _ (wf_sorted_strict hwf i)
        intro a ha b hb hab
        rw [hkey_old a (hvalc i a ha), hkey_old b (hvalc i b hb)]
        exact hab
    · rw [hgt i (by omega)]
      apply pairwise_congr_mem _ (wf_sorted_strict hwf i)
      intro a ha b hb hab
      rw [hkey_old a (hvalc i a ha), hkey_old b (hvalc i b hb)]
      exact hab
  · -- size accounting
    rw [hsz, hwf.2.2, hle 0 (Nat.zero_le h)]
    have hlensum : ((chainL s 0).takeWhile (fun z => decide (keyAt s.nodes z < k))).length +
        ((chainL s 0).dropWhile (fun z => decide (keyAt s.nodes z < k))).length =
        (chainL s 0).length := by
      rw [← List.length_append, List.takeWhile_append_dropWhile]
    simp only [List.length_append, List.length_cons]
    omega

theorem delete_pres_inv {s : SkipList} (hInv : SLInv s) (k : Int)
    {s' : SkipList} (hrun : s.delete k = some s') : SLInv s' := by
  obtain ⟨s'', hrun'', hlen, hlvl, hsz, hpair, hch, hsome, hdk, hnop⟩ := delete_run hInv k
  rw [hrun''] at hrun
  injection hrun with hrun
  subst hrun
  have hkf : keyAt s''.nodes = keyAt s.nodes := funext (fun z => congrArg Pair.key (hpair z))
  have hchsub : ∀ j, (chainL s'' j).Sublist (chainL s j) := by
    intro j
    rw [hch j]
    exact List.filter_sublist _
  refine ⟨by rw [hlen]; exact hInv.1, fun i _ => hsome i, ?_, ?_, ?_, ?_, ?_⟩
  · intro j hj
    rcases hdk 0 j hj with h' | h'
    · rw [hlvl]
      exact inv_hts hInv 0 (Or.inl rfl) j h'
    · rw [hlvl]
      exact h'
  · intro x hx j hj
    rcases hdk x j hj with h' | h'
    · rw [hlvl]
      exact inv_hts hInv x (Or.inr ((hchsub 0).subset hx)) j h'
    · rw [hlvl]
      exact h'
  · intro i _
    exact (List.Sublist.cons₂ 0 (hchsub i)).nodup (inv_nodup hInv i)
  · intro i _
    rw [hkf]
    exact (inv_sorted hInv i).sublist (hchsub i)
  · intro i _
    rw [hch (i+1), hch i]
    exact (inv_subset hInv i).filter _

theorem filter_ne_length_of_strict (κ : Nat → Int) (k : Int) {l : List Nat}
    (hstrict : l.Pairwise (fun a b => κ a < κ b)) {z : Nat} (hz : z ∈ l) (hzk : κ z = k) :
    (l.filter (fun w => !(κ w == k))).length + 1 = l.length := by
  obtain ⟨a, b, hab⟩ := List.append_of_mem hz
  subst hab
  have hsplit := List.pairwise_append.mp hstrict
  have hcons := List.pairwise_cons.mp hsplit.2.1
  have ha : ∀ w ∈ a, (!(κ w == k)) = true := by
    intro w hw
    have := hsplit.2.2 w hw z (by simp)
    simp
    omega
  have hb : ∀ w ∈ b, (!(κ w == k)) = true := by
    intro w hw
    have := hcons.1 w hw
    simp
    omega
  rw [List.filter_append, List.filter_cons, List.filter_eq_self.mpr ha,
    List.filter_eq_self.mpr hb]
  simp [hzk]
  omega

theorem delete_pres_wf {s : SkipList} (hwf : SLWF s) (k : Int)
    {s' : SkipList} (hrun : s.delete k = some s') : SLWF s' := by
  have hInv := hwf.1
  have hInv' := delete_pres_inv hInv k hrun
  obtain ⟨s'', hrun'', hlen, hlvl, hsz, hpair, hch, hsome, hdk, hnop⟩ := delete_run hInv k
  rw [hrun''] at hrun
  injection hrun with hrun
  subst hrun
  have hkf : keyAt s''.nodes = keyAt s.nodes := funext (fun z => congrArg Pair.key (hpair z))
  have hchsub : ∀ j, (chainL s'' j).Sublist (chainL s j) := by
    intro j
    rw [hch j]
    exact List.filter_sublist _
  refine ⟨hInv', ?_, ?_⟩
  · intro i _
    rw [hkf]
    exact (wf_sorted_strict hwf i).sublist (hchsub i)
  · by_cases hk : k ∈ keysAt s 0
    · obtain ⟨z, hz, hzk⟩ := List.mem_map.mp hk
      have hcount := filter_ne_length_of_strict (keyAt s.nodes) k
        (wf_sorted_strict hwf 0) hz hzk
      rw [hsz, if_pos hk, hch 0, hwf.2.2]
      have : ((chainL s 0).filter (fun w => !(keyAt s.nodes w == k))).length + 1 =
          (chainL s 0).length := hcount
      omega
    · rw [hnop hk]
      exact hwf.2.2

theorem inv_empty : SLInv emptySkipList := by decide

theorem wf_empty : SLWF emptySkipList := by decide

/-! ### Node heights -/

theorem le_foldr_max {a : Nat} : ∀ {l : List Nat}, a ∈ l → a ≤ l.foldr max 0 := by
  intro l
  induction l with
  | nil => intro h; simp at h
  | cons b t ih =>
    intro h
    rcases List.mem_cons.mp h with rfl | h'
    · exact le_max_left _ _
    · exact le_trans (ih h') (le_max_right _ _)

theorem foldr_max_le {b : Nat} : ∀ {l : List Nat}, (∀ a ∈ l, a ≤ b) → l.foldr max 0 ≤ b := by
  intro l
  induction l with
  | nil => intro _; simp
  | cons c t ih =>
    intro h
    simp only [List.foldr_cons]
    have h1 := h c (by simp)
    have h2 := ih (fun a ha => h a (by simp [ha]))
    omega

theorem foldr_max_eq {h : Nat} {l : List Nat} (hmem : h ∈ l) (hle : ∀ a ∈ l, a ≤ h) :
    l.foldr max 0 = h :=
  Nat.le_antisymm (foldr_max_le hle) (le_foldr_max hmem)

/-! ### States reachable through the public operations -/

/-- The lists reachable from a freshly constructed empty list through the
public operations (`insert` with any key/value and any level-picker outcome,
and `delete` with any key). -/
inductive Reachable : SkipList → Prop
  | empty : Reachable emptySkipList
  | ins {s s' : SkipList} (k v : Int) (h : Nat) :
      Reachable s → s.insert k v h = some s' → Reachable s'
  | del {s s' : SkipList} (k : Int) :
      Reachable s → s.delete k = some s' → Reachable s'

theorem reachable_inv {s : SkipList} (hr : Reachable s) : SLInv s := by
  induction hr with
  | empty => exact inv_empty
  | ins k v h _ hrun ih => exact insert_pres_inv ih k v h hrun
  | del k _ hrun ih => exact delete_pres_inv ih k hrun

/-! ### Concrete sample lists (used to witness the hypotheses of the claims) -/

/-- The list produced by `insert(1, 10)` at picked height 1 on a fresh list. -/
def sampleA : SkipList :=
  ⟨[⟨⟨0, 0⟩, [(0, some 1), (1, some 1)]⟩, ⟨⟨1, 10⟩, [(0, none), (1, none)]⟩], 1, 1⟩

/-- The list produced by deleting key 1 from `sampleA` (the detached node
stays in the heap but is unreachable). -/
def sampleB : SkipList :=
  ⟨[⟨⟨0, 0⟩, [(0, none), (1, none)]⟩, ⟨⟨1, 10⟩, [(0, none), (1, none)]⟩], 1, 0⟩

/-! ### The claims -/

/-- C1 (counterexample): the claim is false as stated.  After `insert(1, 10)`
with picked height 1 followed by `insert(1, 20)` with picked height 0, the
key 1 was inserted and not deleted, yet `lookup(1)` returns the older value
10 instead of the most recently inserted value 20: the descent meets the
taller, older duplicate node first. -/
theorem C1_counterexample :
    ((emptySkipList.insert 1 10 1).bind (fun s => s.insert 1 20 0)).bind
      (fun s => s.getitem 1) = some (some 10) ∧ (10 : Int) ≠ 20 := by
  constructor
  · decide
  · decide

/-- C1 (amended): on a well-formed list, for a key inserted while ABSENT,
lookup returns the value just inserted; lookup returns the value bound at
level 0; and bindings of other keys survive later inserts and deletes
(so a key inserted-when-absent and not subsequently deleted keeps its value).
The original claim's duplicate-insert sub-claim is dropped: with duplicates
the lookup result depends on the picked node heights (see the
counterexample). -/
theorem C1_theorem :
    (∀ (s : SkipList) (k v : Int) (h : Nat), SLWF s → k ∉ keysAt s 0 →
      ∃ s', s.insert k v h = some s' ∧ SLWF s' ∧ s'.getitem k = some (some v)) ∧
    (∀ (s : SkipList) (k v : Int) (z : Nat), SLWF s → z ∈ chainL s 0 →
      pairAt s.nodes z = ⟨k, v⟩ → s.getitem k = some (some v)) ∧
    (∀ (s s' : SkipList) (k' v' : Int) (h : Nat) (z : Nat), SLInv s →
      s.insert k' v' h = some s' → z ∈ chainL s 0 →
      z ∈ chainL s' 0 ∧ pairAt s'.nodes z = pairAt s.nodes z) ∧
    (∀ (s s' : SkipList) (k' : Int) (z : Nat), SLInv s →
      s.delete k' = some s' → z ∈ chainL s 0 → keyAt s.nodes z ≠ k' →
      z ∈ chainL s' 0 ∧ pairAt s'.nodes z = pairAt s.nodes z) := by
  refine ⟨?_, ?_, ?_, ?_⟩
  · intro s k v h hwf hk
    obtain ⟨s', hrun, hlen, hlvl, hsz, hpair, hle, hgt, hsome, hdkn, hdko⟩ :=
      insert_run hwf.1 k v h
    have hwf' := insert_pres_wf hwf hk v h hrun
    refine ⟨s', hrun, hwf', ?_⟩
    have hmem : s.nodes.length ∈ chainL s' 0 := by
      rw [hle 0 (Nat.zero_le h)]
      exact List.mem_append.mpr (Or.inr (by simp))
    have hkey : keyAt s'.nodes s.nodes.length = k := by
      show (pairAt s'.nodes s.nodes.length).key = k
      rw [hpair _, pairAt, nodeD, getElem?_append_new]
      rfl
    have hval : valueAt s'.nodes s.nodes.length = v := by
      show (pairAt s'.nodes s.nodes.length).value = v
      rw [hpair _, pairAt, nodeD, getElem?_append_new]
      rfl
    rw [← hval]
    exact getitem_found hwf' hmem hkey
  · intro s k v z hwf hz hzp
    have hkey : keyAt s.nodes z = k := by rw [keyAt, hzp]
    have hval : valueAt s.nodes z = v := by rw [valueAt, hzp]
    rw [← hval]
    exact getitem_found hwf hz hkey
  · intro s s' k' v' h z hInv hrun hz
    obtain ⟨s'', hrun'', hlen, hlvl, hsz, hpair, hle, hgt, hsome, hdkn, hdko⟩ :=
      insert_run hInv k' v' h
    rw [hrun''] at hrun
    injection hrun with he
    subst he
    constructor
    · rw [hle 0 (Nat.zero_le h)]
      have hz' : z ∈ (chainL s 0).takeWhile (fun w => decide (keyAt s.nodes w < k')) ++
          (chainL s 0).dropWhile (fun w => decide (keyAt s.nodes w < k')) := by
        rw [List.takeWhile_append_dropWhile]
        exact hz
      rcases List.mem_append.mp hz' with h1 | h1
      · exact List.mem_append.mpr (Or.inl h1)
      · exact List.mem_append.mpr (Or.inr (List.mem_cons.mpr (Or.inr h1)))
    · rw [hpair z, pairAt_append_old s.nodes _ z (inv_valid hInv hz)]
  · intro s s' k' z hInv hrun hz hne
    obtain ⟨s'', hrun'', hlen, hlvl, hsz, hpair, hch, hsome, hdk, hnop⟩ := delete_run hInv k'
    rw [hrun''] at hrun
    injection hrun with he
    subst he
    constructor
    · rw [hch 0]
      apply List.mem_filter.mpr
      exact ⟨hz, by simp [hne]⟩
    · exact hpair z

/-- C1 (witness): inserting key 1 with value 10 into the empty list and
looking it up returns 10. -/
theorem C1_witness :
    (emptySkipList.insert 1 10 0).bind (fun s => s.getitem 1) = some (some 10) := by
  obtain ⟨s', hrun, _, hget⟩ := C1_theorem.1 emptySkipList 1 10 0 wf_empty (by decide)
  rw [hrun]
  show s'.getitem 1 = some (some 10)
  exact hget

/-- C2 (confirmed): on a well-formed list, `lookup(k)` raises `KeyError`
exactly when no node at level 0 carries key `k`; when such a node is
reachable at level 0 it returns a value instead of failing. -/
theorem C2_theorem (s : SkipList) (k : Int) (hwf : SLWF s) :
    (s.getitem k = some none ↔ k ∉ keysAt s 0) ∧
    (k ∈ keysAt s 0 → ∃ v, s.getitem k = some (some v)) := by
  have hfound : k ∈ keysAt s 0 → ∃ v, s.getitem k = some (some v) := by
    intro hk
    obtain ⟨z, hz, hzk⟩ := List.mem_map.mp hk
    exact ⟨valueAt s.nodes z, getitem_found hwf hz hzk⟩
  refine ⟨⟨?_, ?_⟩, hfound⟩
  · intro hnone hk
    obtain ⟨v, hv⟩ := hfound hk
    rw [hv] at hnone
    simp at hnone
  · intro hk
    exact getitem_absent hwf.1 hk

/-- C2 (witness): lookup of key 5 on the empty list raises `KeyError`. -/
theorem C2_witness : emptySkipList.getitem 5 = some none :=
  (C2_theorem emptySkipList 5 wf_empty).1.mpr (by decide)

/-- C3 (counterexample): the claim is false as stated.  Inserting key 1
twice (both at picked height 0) gives `size = 2`, while only one distinct
key is reachable at level 0 — and this state is produced purely by `insert`
calls from the empty list, so the "after any sequence of operations"
quantification includes it. -/
theorem C3_counterexample :
    ((emptySkipList.insert 1 10 0).bind (fun s => s.insert 1 20 0)).map
      (fun s => (s.size, (keysAt s 0).dedup.length)) = some (2, 1) ∧
    (2 : Int) ≠ (1 : Int) := by
  constructor
  · decide
  · decide

/-- C3 (amended): size accounting holds for every operation sequence in
which each `insert` is performed with a key absent at the time: the empty
list is well formed, such inserts and all deletes preserve well-formedness,
and on every well-formed list `size` equals the number of distinct keys
reachable at level 0.  (With duplicate inserts the counterexample shows
`size` overcounts.) -/
theorem C3_theorem :
    SLWF emptySkipList ∧
    (∀ (s : SkipList) (k v : Int) (h : Nat), SLWF s → k ∉ keysAt s 0 →
      ∃ s', s.insert k v h = some s' ∧ SLWF s') ∧
    (∀ (s : SkipList) (k : Int), SLWF s → ∃ s', s.delete k = some s' ∧ SLWF s') ∧
    (∀ s : SkipList, SLWF s → s.size = ((keysAt s 0).dedup.length : Int)) := by
  refine ⟨wf_empty, ?_, ?_, ?_⟩
  · intro s k v h hwf hk
    obtain ⟨s', hrun, _⟩ := insert_run hwf.1 k v h
    exact ⟨s', hrun, insert_pres_wf hwf hk v h hrun⟩
  · intro s k hwf
    obtain ⟨s', hrun, _⟩ := delete_run hwf.1 k
    exact ⟨s', hrun, delete_pres_wf hwf k hrun⟩
  · intro s hwf
    have hnd : (keysAt s 0).Nodup := by
      apply List.Pairwise.imp (fun hab => ne_of_lt hab)
      exact List.pairwise_map.mpr (wf_sorted_strict hwf 0)
    rw [List.dedup_eq_self.mpr hnd, keysAt, List.length_map]
    exact hwf.2.2

/-- C3 (witness): on the concrete one-element well-formed list `sampleA`,
`size` equals the number of distinct keys at level 0 (namely 1). -/
theorem C3_witness : sampleA.size = ((keysAt sampleA 0).dedup.length : Int) :=
  C3_theorem.2.2.2 sampleA (by decide)

/-- C4 (counterexample): the claim is false as stated.  Insert key 1 at
picked height 1 into the empty list, then delete it: the unique node of
maximum height is removed, the list becomes empty, yet `SkipList.level`
remains 1 instead of the claimed maximum height 0 — `delete` never lowers
`level`. -/
theorem C4_counterexample :
    ((emptySkipList.insert 1 10 1).bind (fun s => s.delete 1)).map
      (fun s => (s.level, chainL s 0)) = some (1, []) ∧ (1 : Nat) ≠ 0 := by
  constructor
  · decide
  · decide

/-- C4 (amended): the bound direction of the invariant holds — no reachable
node's height (nor the head's) exceeds `SkipList.level` — and `insert` sets
`level` to `max(previous level, picked height)`; but `delete` always leaves
`level` unchanged, so after deleting the tallest node `level` may strictly
exceed the maximum height of the remaining nodes (see the counterexample). -/
theorem C4_theorem :
    (∀ s : SkipList, SLInv s → ∀ x, (x = 0 ∨ x ∈ chainL s 0) →
      SkipNode.level (nodeD s.nodes x) ≤ s.level) ∧
    (∀ (s s' : SkipList) (k v : Int) (h : Nat), SLInv s →
      s.insert k v h = some s' → s'.level = max s.level h) ∧
    (∀ (s s' : SkipList) (k : Int), s.delete k = some s' → s'.level = s.level) := by
  refine ⟨?_, ?_, ?_⟩
  · intro s hInv x hx
    apply foldr_max_le
    intro j hj
    exact inv_hts hInv x hx j hj
  · intro s s' k v h hInv hrun
    obtain ⟨s'', hrun'', hlen, hlvl, _⟩ := insert_run hInv k v h
    rw [hrun''] at hrun
    injection hrun with he
    subst he
    exact hlvl
  · intro s s' k hrun
    rw [SkipList.delete] at hrun
    cases hdl : deleteLevels k (s.nodes.length + 1) s.level s.nodes 0 false with
    | none => rw [hdl] at hrun; simp at hrun
    | some p =>
      rw [hdl] at hrun
      simp only [Option.map_some'] at hrun
      injection hrun with he
      by_cases hp : p.2 = true
      · rw [if_pos hp] at he
        rw [← he]
      · rw [if_neg hp] at he
        rw [← he]

/-- C4 (witness): inserting key 1 at picked height 1 into the empty list
raises the level to `max 0 1 = 1`. -/
theorem C4_witness : sampleA.level = max emptySkipList.level 1 :=
  C4_theorem.2.1 emptySkipList sampleA 1 10 1 (by decide) (by decide)

/-- C5 (counterexample): the claim is false as stated.  After inserting key
1 twice (well-formed list, key already present on the second insert), the
level-0 traversal reads the keys `[1, 1]`, which is not strictly
increasing. -/
theorem C5_counterexample :
    ((emptySkipList.insert 1 10 0).bind (fun s => s.insert 1 20 0)).map
      (fun s => keysAt s 0) = some [1, 1] ∧
    ¬ List.Pairwise (fun a b : Int => a < b) [1, 1] := by
  constructor
  · decide
  · decide

/-- C5 (amended): strict ordering at every level is preserved by `insert`
when the inserted key is absent and by every `delete`; an `insert` of a key
already present only preserves non-strict (non-decreasing) ordering, since
it creates an adjacent duplicate (see the counterexample). -/
theorem C5_theorem :
    (∀ (s s' : SkipList) (k v : Int) (h : Nat), SLInv s → s.insert k v h = some s' →
      ∀ i, (keysAt s' i).Pairwise (· ≤ ·)) ∧
    (∀ (s s' : SkipList) (k v : Int) (h : Nat), SLWF s → k ∉ keysAt s 0 →
      s.insert k v h = some s' → ∀ i, (keysAt s' i).Pairwise (· < ·)) ∧
    (∀ (s s' : SkipList) (k : Int), SLWF s → s.delete k = some s' →
      ∀ i, (keysAt s' i).Pairwise (· < ·)) := by
  refine ⟨?_, ?_, ?_⟩
  · intro s s' k v h hInv hrun i
    exact List.pairwise_map.mpr (inv_sorted (insert_pres_inv hInv k v h hrun) i)
  · intro s s' k v h hwf hk hrun i
    exact List.pairwise_map.mpr (wf_sorted_strict (insert_pres_wf hwf hk v h hrun) i)
  · intro s s' k hwf hrun i
    exact List.pairwise_map.mpr (wf_sorted_strict (delete_pres_wf hwf k hrun) i)

/-- C5 (witness): after inserting key 1 into the empty list, the level-0
keys are strictly increasing. -/
theorem C5_witness : (keysAt sampleA 0).Pairwise (· < ·) :=
  C5_theorem.2.1 emptySkipList sampleA 1 10 1 wf_empty (by decide) (by decide) 0

/-- C6 (confirmed): both mutating operations preserve the subset property on
any structurally valid list (including ones holding duplicate keys): at
every level the chain at level `i+1` is a sublist (same relative order) of
the chain at level `i`, and every node reachable at any level is reachable
at level 0. -/
theorem C6_theorem :
    (∀ (s s' : SkipList) (k v : Int) (h : Nat), SLInv s → s.insert k v h = some s' →
      (∀ i, (chainL s' (i+1)).Sublist (chainL s' i)) ∧
      (∀ i, ∀ z ∈ chainL s' i, z ∈ chainL s' 0)) ∧
    (∀ (s s' : SkipList) (k : Int), SLInv s → s.delete k = some s' →
      (∀ i, (chainL s' (i+1)).Sublist (chainL s' i)) ∧
      (∀ i, ∀ z ∈ chainL s' i, z ∈ chainL s' 0)) := by
  constructor
  · intro s s' k v h hInv hrun
    have hInv' := insert_pres_inv hInv k v h hrun
    exact ⟨inv_subset hInv', fun i z hz => (inv_chain_sub0 hInv' i).subset hz⟩
  · intro s s' k hInv hrun
    have hInv' := delete_pres_inv hInv k hrun
    exact ⟨inv_subset hInv', fun i z hz => (inv_chain_sub0 hInv' i).subset hz⟩

/-- C6 (witness): after inserting key 1 at height 1 into the empty list, the
level-1 chain is a sublist of the level-0 chain. -/
theorem C6_witness : (chainL sampleA 1).Sublist (chainL sampleA 0) :=
  (C6_theorem.1 emptySkipList sampleA 1 10 1 (by decide) (by decide)).1 0

/-- C7 (confirmed): on a well-formed list, inserting an absent key and then
deleting it restores both `size` and the keys reachable at level 0. -/
theorem C7_theorem (s s₁ s₂ : SkipList) (k v : Int) (h : Nat) (hwf : SLWF s)
    (hk : k ∉ keysAt s 0) (hins : s.insert k v h = some s₁)
    (hdel : s₁.delete k = some s₂) :
    s₂.size = s.size ∧ keysAt s₂ 0 = keysAt s 0 := by
  obtain ⟨s₁', hrun₁, hlen₁, hlvl₁, hsz₁, hpair₁, hle₁, hgt₁, hsome₁, hdkn₁, hdko₁⟩ :=
    insert_run hwf.1 k v h
  rw [hrun₁] at hins
  injection hins with he₁
  subst he₁
  have hwfA : SLWF s₁' := insert_pres_wf hwf hk v h hrun₁
  obtain ⟨s₂', hrun₂, hlen₂, hlvl₂, hsz₂, hpair₂, hch₂, hsome₂, hdk₂, hnop₂⟩ :=
    delete_run hwfA.1 k
  rw [hrun₂] at hdel
  injection hdel with he₂
  subst he₂
  have hvalc : ∀ z ∈ chainL s 0, z < s.nodes.length := fun z hz => inv_valid hwf.1 hz
  have hkey_old : ∀ z, z < s.nodes.length → keyAt s₁'.nodes z = keyAt s.nodes z := by
    intro z hz
    show (pairAt s₁'.nodes z).key = (pairAt s.nodes z).key
    rw [hpair₁ z, pairAt_append_old s.nodes _ z hz]
  have hkeyn : keyAt s₁'.nodes s.nodes.length = k := by
    show (pairAt s₁'.nodes s.nodes.length).key = k
    rw [hpair₁ _, pairAt, nodeD, getElem?_append_new]
    rfl
  have habs : ∀ z ∈ chainL s 0, keyAt s.nodes z ≠ k := by
    intro z hz hzk
    exact hk (by rw [keysAt, List.mem_map]; exact ⟨z, hz, hzk⟩)
  have hmemk : k ∈ keysAt s₁' 0 := by
    rw [keysAt, List.mem_map]
    refine ⟨s.nodes.length, ?_, hkeyn⟩
    rw [hle₁ 0 (Nat.zero_le h)]
    exact List.mem_append.mpr (Or.inr (by simp))
  have hchain2 : chainL s₂' 0 = chainL s 0 := by
    rw [hch₂ 0, hle₁ 0 (Nat.zero_le h), List.filter_append, List.filter_cons]
    have hfn : (!(keyAt s₁'.nodes s.nodes.length == k)) = false := by
      simp [hkeyn]
    rw [hfn]
    simp only [Bool.false_eq_true, if_false]
    have hft : ((chainL s 0).takeWhile (fun w => decide (keyAt s.nodes w < k))).filter
        (fun z => !(keyAt s₁'.nodes z == k)) =
        (chainL s 0).takeWhile (fun w => decide (keyAt s.nodes w < k)) := by
      apply List.filter_eq_self.mpr
      intro z hz
      have hzc : z ∈ chainL s 0 := (List.takeWhile_sublist _).subset hz
      have := mem_takeWhile_lt (keyAt s.nodes) k hz
      rw [hkey_old z (hvalc z hzc)]
      simp
      omega
    have hfr : ((chainL s 0).dropWhile (fun w => decide (keyAt s.nodes w < k))).filter
        (fun z => !(keyAt s₁'.nodes z == k)) =
        (chainL s 0).dropWhile (fun w => decide (keyAt s.nodes w < k)) := by
      apply List.filter_eq_self.mpr
      intro z hz
      have hzc : z ∈ chainL s 0 := (List.dropWhile_sublist _).subset hz
      rw [hkey_old z (hvalc z hzc)]
      simp
      exact habs z hzc
    rw [hft, hfr, List.takeWhile_append_dropWhile]
  constructor
  · rw [hsz₂, if_pos hmemk, hsz₁]
    omega
  · rw [keysAt, hchain2]
    apply List.map_eq_map_iff.mpr
    intro z hz
    have h1 : pairAt s₂'.nodes z = pairAt s₁'.nodes z := hpair₂ z
    show (pairAt s₂'.nodes z).key = (pairAt s.nodes z).key
    rw [h1]
    exact hkey_old z (hvalc z hz)

/-- C7 (witness): inserting key 1 into the empty list and deleting it again
restores the size and the level-0 key set. -/
theorem C7_witness : sampleB.size = emptySkipList.size ∧
    keysAt sampleB 0 = keysAt emptySkipList 0 :=
  C7_theorem emptySkipList sampleA sampleB 1 10 1 wf_empty (by decide) (by decide) (by decide)

/-- C8 (confirmed): deleting an absent key from a well-formed list is a
literal no-op — the returned list is the very same state, so `size`, the
reachable key set and every forward link are unchanged — and deletion is
idempotent: a second delete of the same key returns its input unchanged. -/
theorem C8_theorem :
    (∀ (s : SkipList) (k : Int), SLWF s → k ∉ keysAt s 0 → s.delete k = some s) ∧
    (∀ (s s' : SkipList) (k : Int), SLWF s → s.delete k = some s' →
      s'.delete k = some s') := by
  have habs : ∀ (s : SkipList) (k : Int), SLWF s → k ∉ keysAt s 0 → s.delete k = some s := by
    intro s k hwf hk
    obtain ⟨s', hrun, _, _, _, _, _, _, _, hnop⟩ := delete_run hwf.1 k
    rw [hrun, hnop hk]
  refine ⟨habs, ?_⟩
  intro s s' k hwf hrun
  have hwf' := delete_pres_wf hwf k hrun
  obtain ⟨s'', hrun'', hlen, hlvl, hsz, hpair, hch, hsome, hdk, hnop⟩ := delete_run hwf.1 k
  rw [hrun''] at hrun
  injection hrun with he
  subst he
  apply habs _ _ hwf'
  intro hk
  obtain ⟨z, hz, hzk⟩ := List.mem_map.mp hk
  rw [hch 0] at hz
  have hzf := (List.mem_filter.mp hz).2
  have hke : keyAt s''.nodes z = keyAt s.nodes z := congrArg Pair.key (hpair z)
  rw [hke] at hzk
  rw [hzk] at hzf
  simp at hzf

/-- C8 (witness): deleting the absent key 5 from the empty list returns the
list unchanged. -/
theorem C8_witness : emptySkipList.delete 5 = some emptySkipList :=
  C8_theorem.1 emptySkipList 5 wf_empty (by decide)

/-- C9 (confirmed): when the level picker (`get_level`) is overridden to
return `h`, the inserted node's height (`SkipNode.level`, the maximum level
index in its `next` dictionary) is exactly `h`, and the list's maximum level
becomes `max(previous level, h)`. -/
theorem C9_theorem (s s' : SkipList) (k v : Int) (h : Nat) (hInv : SLInv s)
    (hrun : s.insert k v h = some s') :
    SkipNode.level (nodeD s'.nodes s.nodes.length) = h ∧ s'.level = max s.level h := by
  obtain ⟨s'', hrun'', hlen, hlvl, hsz, hpair, hle, hgt, hsome, hdkn, hdko⟩ :=
    insert_run hInv k v h
  rw [hrun''] at hrun
  injection hrun with he
  subst he
  refine ⟨?_, hlvl⟩
  rw [SkipNode.level]
  apply foldr_max_eq
  · exact (hdkn h).mpr le_rfl
  · intro a ha
    exact (hdkn a).mp ha

/-- C9 (witness): inserting into the empty list with the picker fixed to 1
produces a node of height exactly 1 and raises the list level to 1. -/
theorem C9_witness :
    SkipNode.level (nodeD sampleA.nodes emptySkipList.nodes.length) = 1 ∧
    sampleA.level = max emptySkipList.level 1 :=
  C9_theorem emptySkipList sampleA 1 10 1 (by decide) (by decide)

/-- C10 (confirmed): on every state reachable through the public operations
(including states holding duplicate keys from repeated inserts), `delete(k)`
removes every node carrying `k` from every level, and a subsequent
`lookup(k)` raises `KeyError`. -/
theorem C10_theorem (s s' : SkipList) (k : Int) (hreach : Reachable s)
    (hdel : s.delete k = some s') :
    s'.getitem k = some none ∧ (∀ i, ∀ z ∈ chainL s' i, keyAt s'.nodes z ≠ k) := by
  have hInv := reachable_inv hreach
  have hInv' := delete_pres_inv hInv k hdel
  obtain ⟨s'', hrun'', hlen, hlvl, hsz, hpair, hch, hsome, hdk, hnop⟩ := delete_run hInv k
  rw [hrun''] at hdel
  injection hdel with he
  subst he
  have hkeys : ∀ i, ∀ z ∈ chainL s'' i, keyAt s''.nodes z ≠ k := by
    intro i z hz
    rw [hch i] at hz
    have hzf := (List.mem_filter.mp hz).2
    have hke : keyAt s''.nodes z = keyAt s.nodes z := congrArg Pair.key (hpair z)
    rw [hke]
    simpa using hzf
  refine ⟨?_, hkeys⟩
  apply getitem_absent hInv'
  intro hk
  obtain ⟨z, hz, hzk⟩ := List.mem_map.mp hk
  exact hkeys 0 z hz hzk

/-- C10 (witness): deleting key 1 from the one-element reachable list and
looking it up afterwards raises `KeyError`. -/
theorem C10_witness : sampleB.getitem 1 = some none :=
  (C10_theorem sampleA sampleB 1
    (Reachable.ins 1 10 1 Reachable.empty (by decide)) (by decide)).1
